import Mathlib

/-!
Verification model of the godat serialization codec.

The Go sources are embedded shallowly:

* machine integers become `Nat` / `Int` with explicit `% 2 ^ w` where Go
  conversions truncate;
* IEEE-754 `float32` / `float64` values are carried as their bit patterns
  (`Nat` below `2 ^ 32` / `2 ^ 64`); the finite values they denote are
  handled exactly, as dyadic numbers `m * 2 ^ e` represented by pairs
  `(m : Nat, e : Int)`, so all comparisons and conversions performed by the
  Go code on finite floats are reproduced exactly;
* `reflect.Value` trees become the inductive `GoVal`, and destination
  types (the shape behind the pointer handed to `Decode`) become `GoType`;
* the byte stream is a `List Nat` of bytes; the decoder threads the
  remaining input explicitly and returns the (possibly partially mutated)
  destination value together with an optional error, mirroring Go's
  in-place mutation through a pointer;
* the recursive decoder takes a fuel parameter bounding the nesting depth
  (an artifact of the embedding's termination measure; `DecErr.fuelOut` is
  never reached when the fuel exceeds the nesting depth of the record).

Modelling notes, fixed for the whole file:

* field names and text are byte lists (Go strings are byte strings);
* the model has no `encoding.BinaryMarshaler` / `BinaryUnmarshaler`
  implementors: struct types in the model are plain records without custom
  hooks, so `encodeObject`'s marshaler branch and `decodeBinary`'s
  unmarshaler branch do not arise;
* pointer and interface values/destinations are not modelled (no claim
  needs them); struct fields are modelled as exported (`CanSet` true);
* Go map iteration order is unspecified; the model iterates map pairs and
  struct fields in list order;
* a slice's capacity is modelled as equal to its length;
* `Unmarshal` reads from a `bytes.Reader`, whose `Read` reports `io.EOF`
  only when the source is exhausted and otherwise never reports a short
  read; `Decoder.next` is modelled accordingly (zero padding on a short
  source, error only at end of stream), while `Decoder.read` goes through
  `io.ReadFull` and needs the exact byte count.
-/

set_option maxRecDepth 20000
set_option exponentiation.threshold 5000

namespace Godat

/-- Byte strings: lists of byte values (naturals below 256). -/
abbrev ByteStr := List Nat

/-- ASCII bytes of a string literal, used to write concrete examples. -/
def ascii (s : String) : ByteStr := s.data.map Char.toNat

/-- Big-endian bytes of a natural number, `k` bytes wide; higher bits are
truncated exactly as Go's narrowing integer conversions do. -/
def be : Nat → Nat → ByteStr
  | 0, _ => []
  | k + 1, n => be k (n / 256) ++ [n % 256]

/-- Value of a big-endian byte string. -/
def beToNat (bs : ByteStr) : Nat := bs.foldl (fun a b => a * 256 + b) 0

/-- Two's-complement big-endian bytes of an integer, `k` bytes wide. -/
def beInt (k : Nat) (i : Int) : ByteStr := be k (i % (2 ^ (8 * k) : Int)).toNat

/-- Signed (two's-complement) value of a `k`-byte big-endian byte string. -/
def beToInt (k : Nat) (bs : ByteStr) : Int :=
  if beToNat bs < 2 ^ (8 * k - 1) then (beToNat bs : Int)
  else (beToNat bs : Int) - 2 ^ (8 * k)

/-- Model of `Decoder.read` for a `k`-byte value: `binary.Read` uses
`io.ReadFull`, which fails unless exactly `k` bytes are available. -/
def readK (k : Nat) (input : ByteStr) : Option (ByteStr × ByteStr) :=
  if k ≤ input.length then some (input.take k, input.drop k) else none

/-- Model of `Decoder.next` over a `bytes.Reader`: a single `Read` call
reports `io.EOF` only when the source is already exhausted (even for a
zero-length buffer); otherwise it fills as much of the buffer as it can and
never reports a short read, so a short source silently yields a
zero-padded buffer. -/
def next (n : Nat) (input : ByteStr) : Option (ByteStr × ByteStr) :=
  if input.isEmpty then none
  else some (input.take n ++ List.replicate (n - input.length) 0, input.drop n)

/-! Tag bytes, from the tag scheme in godat.go: one byte per record,
`base letter + width offset`. -/

def t8 : Nat := 0x00
def t16 : Nat := 0x1A
def t32 : Nat := 0x34
def t64 : Nat := 0x4E

def tNil : Nat := 'Z'.toNat + t8

def tTrue : Nat := 'T'.toNat + t8
def tFalse : Nat := 'F'.toNat + t8

def tInt8 : Nat := 'I'.toNat + t8
def tInt16 : Nat := 'I'.toNat + t16
def tInt32 : Nat := 'I'.toNat + t32
def tInt64 : Nat := 'I'.toNat + t64

def tUint8 : Nat := 'U'.toNat + t8
def tUint16 : Nat := 'U'.toNat + t16
def tUint32 : Nat := 'U'.toNat + t32
def tUint64 : Nat := 'U'.toNat + t64

def tFloat32 : Nat := 'D'.toNat + t32
def tFloat64 : Nat := 'D'.toNat + t64

def tString8 : Nat := 'S'.toNat + t8
def tString16 : Nat := 'S'.toNat + t16
def tString32 : Nat := 'S'.toNat + t32

def tArray8 : Nat := 'A'.toNat + t8
def tArray16 : Nat := 'A'.toNat + t16
def tArray32 : Nat := 'A'.toNat + t32

def tObject8 : Nat := 'O'.toNat + t8
def tObject16 : Nat := 'O'.toNat + t16
def tObject32 : Nat := 'O'.toNat + t32

def tBinary8 : Nat := 'B'.toNat + t8
def tBinary16 : Nat := 'B'.toNat + t16
def tBinary32 : Nat := 'B'.toNat + t32

/-- The tag bytes recognized by the `switch` in `Decoder.DecodeValue`. -/
def recognizedTags : List Nat :=
  [tNil, tTrue, tFalse,
   tInt8, tInt16, tInt32, tInt64,
   tUint8, tUint16, tUint32, tUint64,
   tFloat32, tFloat64,
   tString8, tString16, tString32,
   tBinary8, tBinary16, tBinary32,
   tArray8, tArray16, tArray32,
   tObject8, tObject16, tObject32]

/-! Exact IEEE-754 arithmetic on bit patterns.

A finite float denotes the dyadic rational `m * 2 ^ e`; absolute values are
carried as pairs `(m : Nat, e : Int)`.  All comparisons and conversions the
Go code performs on finite floats are exact operations on such pairs, so
the model below reproduces them without any approximation. -/

/-- Floor of the base-2 logarithm, fuel-driven so that it reduces inside
the kernel; `log2f f n` is exact whenever `n < 2 ^ f`. -/
def log2f : Nat → Nat → Nat
  | 0, _ => 0
  | f + 1, n => if n < 2 then 0 else log2f f (n / 2) + 1

/-- Rounding of `M / 2 ^ k` to the nearest integer, ties to even: the IEEE
round-to-nearest-even rule for a binary shift. -/
def roundHalfEven (M k : Nat) : Nat :=
  if k = 0 then M
  else
    let q := M / 2 ^ k
    let r := M % 2 ^ k
    if 2 ^ (k - 1) < r then q + 1
    else if r < 2 ^ (k - 1) then q
    else if q % 2 = 0 then q else q + 1

/-- Comparison of nonnegative dyadic numbers: `dle (a, e) (b, f)` decides
`a * 2 ^ e ≤ b * 2 ^ f` by scaling to the smaller exponent. -/
def dle (a b : Nat × Int) : Bool :=
  if a.2 ≤ b.2 then decide (a.1 ≤ b.1 * 2 ^ (b.2 - a.2).toNat)
  else decide (a.1 * 2 ^ (a.2 - b.2).toNat ≤ b.1)

/-- Strict comparison of nonnegative dyadic numbers. -/
def dlt (a b : Nat × Int) : Bool := !dle b a

def f64SignB (b : Nat) : Nat := b / 2 ^ 63 % 2
def f64Exp (b : Nat) : Nat := b / 2 ^ 52 % 2 ^ 11
def f64Mant (b : Nat) : Nat := b % 2 ^ 52

def f32SignB (b : Nat) : Nat := b / 2 ^ 31 % 2
def f32Exp (b : Nat) : Nat := b / 2 ^ 23 % 2 ^ 8
def f32Mant (b : Nat) : Nat := b % 2 ^ 23

/-- Model of `math.IsInf(v, 0) || math.IsNaN(v)` on a binary64 pattern. -/
def isNaNOrInf64 (b : Nat) : Bool := f64Exp b == 2047

/-- Absolute value of a finite binary64 pattern as an exact dyadic number
(`math.Abs` clears the sign bit; the exponent-2047 patterns are guarded
against by every caller). -/
def absD64 (b : Nat) : Nat × Int :=
  if f64Exp b = 0 then (f64Mant b, -1074)
  else (2 ^ 52 + f64Mant b, (f64Exp b : Int) - 1075)

/-- Absolute value of a finite binary32 pattern as an exact dyadic number. -/
def absD32 (b : Nat) : Nat × Int :=
  if f32Exp b = 0 then (f32Mant b, -149)
  else (2 ^ 23 + f32Mant b, (f32Exp b : Int) - 150)

/-- Go's `math.SmallestNonzeroFloat32` (the smallest positive 32-bit
subnormal, `2 ^ -149`) as an exact dyadic number. -/
def smallestNonzeroFloat32D : Nat × Int := (1, -149)

/-- Go's `math.MaxFloat32` (the largest finite 32-bit float,
`(2 ^ 24 - 1) * 2 ^ 104`) as an exact dyadic number. -/
def maxFloat32D : Nat × Int := (2 ^ 24 - 1, 104)

/-- Widening conversion `float64(x)` of a binary32 pattern: exact on every
input (subnormals are renormalized, NaN and infinity keep their class). -/
def f32ToF64bits (b : Nat) : Nat :=
  if f32Exp b = 255 then f32SignB b * 2 ^ 63 + 2047 * 2 ^ 52 + f32Mant b * 2 ^ 29
  else if f32Exp b = 0 then
    (if f32Mant b = 0 then f32SignB b * 2 ^ 63
     else f32SignB b * 2 ^ 63 + (log2f 32 (f32Mant b) + 874) * 2 ^ 52 +
       (f32Mant b * 2 ^ (52 - log2f 32 (f32Mant b)) - 2 ^ 52))
  else f32SignB b * 2 ^ 63 + (f32Exp b + 896) * 2 ^ 52 + f32Mant b * 2 ^ 29

/-- Narrowing conversion `float32(v)` of a finite binary64 pattern:
IEEE round-to-nearest-even, computed exactly on the bit pattern.  The
callers in the model only reach this after guarding against NaN/infinity. -/
def f64ToF32bits (b : Nat) : Nat :=
  if f64Exp b = 2047 then
    f64SignB b * 2 ^ 31 + 255 * 2 ^ 23 + (if f64Mant b = 0 then 0 else 1)
  else if f64Exp b = 0 then f64SignB b * 2 ^ 31
  else if ((f64Exp b : Int) - 1075 + 29 < -149) then
    f64SignB b * 2 ^ 31 + roundHalfEven (2 ^ 52 + f64Mant b) (926 - f64Exp b)
  else if roundHalfEven (2 ^ 52 + f64Mant b) 29 = 2 ^ 24 then
    (if (255 : Int) ≤ ((f64Exp b : Int) - 1075 + 29 + 1) + 150 then
      f64SignB b * 2 ^ 31 + 255 * 2 ^ 23
     else f64SignB b * 2 ^ 31 + (((f64Exp b : Int) - 1075 + 29 + 1) + 150).toNat * 2 ^ 23)
  else
    (if (255 : Int) ≤ ((f64Exp b : Int) - 1075 + 29) + 150 then
      f64SignB b * 2 ^ 31 + 255 * 2 ^ 23
     else f64SignB b * 2 ^ 31 + (((f64Exp b : Int) - 1075 + 29) + 150).toNat * 2 ^ 23 +
       (roundHalfEven (2 ^ 52 + f64Mant b) 29 - 2 ^ 23))

/-- Conversion `float64(n)` of a natural number below `2 ^ 64`:
round-to-nearest-even to 53 significant bits. -/
def natToF64bits (m : Nat) : Nat :=
  if m = 0 then 0
  else if log2f 64 m ≤ 52 then
    (log2f 64 m + 1023) * 2 ^ 52 + (m * 2 ^ (52 - log2f 64 m) - 2 ^ 52)
  else if roundHalfEven m (log2f 64 m - 52) = 2 ^ 53 then (log2f 64 m + 1 + 1023) * 2 ^ 52
  else (log2f 64 m + 1023) * 2 ^ 52 + (roundHalfEven m (log2f 64 m - 52) - 2 ^ 52)

/-- Conversion `float64(i)` of a signed 64-bit integer. -/
def i64ToF64bits (i : Int) : Nat :=
  if i < 0 then 2 ^ 63 + natToF64bits (-i).toNat else natToF64bits i.toNat

/-- Truncating conversion `int64(v)` of a binary64 pattern.  Go leaves the
result implementation-defined when the value does not fit `int64` or is
NaN; the model uses the gc/amd64 result `-2 ^ 63` there (no theorem in
this file depends on that region). -/
def f64ToI64trunc (b : Nat) : Int :=
  if f64Exp b = 2047 then -(2 ^ 63)
  else
    let p := absD64 b
    let t : Nat := if 0 ≤ p.2 then p.1 * 2 ^ p.2.toNat else p.1 / 2 ^ (-p.2).toNat
    let v : Int := if f64SignB b = 1 then -(t : Int) else (t : Int)
    if -(2 ^ 63) ≤ v ∧ v < 2 ^ 63 then v else -(2 ^ 63)

/-- Truncating conversion `uint64(v)` of a binary64 pattern.  Out-of-range
inputs are implementation-defined in Go; the model wraps negative in-range
truncations modulo `2 ^ 64` and saturates the rest to `2 ^ 63`, matching
gc/amd64 (no theorem in this file depends on that region). -/
def f64ToU64trunc (b : Nat) : Nat :=
  if f64Exp b = 2047 then 2 ^ 63
  else
    let p := absD64 b
    let t : Nat := if 0 ≤ p.2 then p.1 * 2 ^ p.2.toNat else p.1 / 2 ^ (-p.2).toNat
    if f64SignB b = 1 then ((-(t : Int)) % (2 ^ 64 : Int)).toNat
    else if t < 2 ^ 64 then t else 2 ^ 63

/-! The value and type model. -/

/-- Widths of Go's sized integer kinds. -/
inductive W where
  | w8
  | w16
  | w32
  | w64
deriving DecidableEq

def W.bits : W → Nat
  | .w8 => 8
  | .w16 => 16
  | .w32 => 32
  | .w64 => 64

/-- Shapes a decode destination can have (the type behind the pointer
handed to `Decode`).  `tbytes` is Go's `[]byte`; `tslice` covers the other
slice types; `tarray` is a fixed-size array type. -/
inductive GoType where
  | tbool
  | tint (w : W)
  | tuint (w : W)
  | tfloat32
  | tfloat64
  | tstring
  | tbytes
  | tarray (len : Nat) (elem : GoType)
  | tslice (elem : GoType)
  | tmap (key val : GoType)
  | tstruct (fields : List (ByteStr × GoType))

/-- Runtime values, mirroring the shapes `Encoder.EncodeValue` walks.
Integer values carry their width and their mathematical value; float
values carry their IEEE bit pattern. -/
inductive GoVal where
  | vbool (b : Bool)
  | vint (w : W) (n : Int)
  | vuint (w : W) (n : Nat)
  | vf32 (bits : Nat)
  | vf64 (bits : Nat)
  | vstring (s : ByteStr)
  | vbytes (s : ByteStr)
  | varray (es : List GoVal)
  | vslice (es : List GoVal)
  | vmap (ps : List (GoVal × GoVal))
  | vstruct (fs : List (ByteStr × GoVal))

mutual
/-- Boolean equality on values (Go's `==` on comparable shapes, extended
structurally); used for map key identity in `SetMapIndex`. -/
def GoVal.beq : GoVal → GoVal → Bool
  | .vbool a, .vbool b => a == b
  | .vint w a, .vint w' b => w == w' && a == b
  | .vuint w a, .vuint w' b => w == w' && a == b
  | .vf32 a, .vf32 b => a == b
  | .vf64 a, .vf64 b => a == b
  | .vstring a, .vstring b => a == b
  | .vbytes a, .vbytes b => a == b
  | .varray a, .varray b => GoVal.beqList a b
  | .vslice a, .vslice b => GoVal.beqList a b
  | .vmap a, .vmap b => GoVal.beqPairs a b
  | .vstruct a, .vstruct b => GoVal.beqFields a b
  | _, _ => false
termination_by structural a => a

def GoVal.beqList : List GoVal → List GoVal → Bool
  | [], [] => true
  | a :: as, b :: bs => a.beq b && GoVal.beqList as bs
  | _, _ => false
termination_by structural a => a

def GoVal.beqPairs : List (GoVal × GoVal) → List (GoVal × GoVal) → Bool
  | [], [] => true
  | (k1, v1) :: as, (k2, v2) :: bs => k1.beq k2 && v1.beq v2 && GoVal.beqPairs as bs
  | _, _ => false
termination_by structural a => a

def GoVal.beqFields : List (ByteStr × GoVal) → List (ByteStr × GoVal) → Bool
  | [], [] => true
  | (n1, v1) :: as, (n2, v2) :: bs => n1 == n2 && v1.beq v2 && GoVal.beqFields as bs
  | _, _ => false
termination_by structural a => a
end

mutual
/-- Zero value of a type (`reflect.Zero` / `reflect.New(...).Elem()`);
nil slices and maps are conflated with empty ones. -/
def zeroVal : GoType → GoVal
  | .tbool => .vbool false
  | .tint w => .vint w 0
  | .tuint w => .vuint w 0
  | .tfloat32 => .vf32 0
  | .tfloat64 => .vf64 0
  | .tstring => .vstring []
  | .tbytes => .vbytes []
  | .tarray len t => .varray (List.replicate len (zeroVal t))
  | .tslice _ => .vslice []
  | .tmap _ _ => .vmap []
  | .tstruct fts => .vstruct (zeroFields fts)
termination_by structural t => t

def zeroFields : List (ByteStr × GoType) → List (ByteStr × GoVal)
  | [] => []
  | (n, t) :: fts => (n, zeroVal t) :: zeroFields fts
termination_by structural fts => fts
end

/-! The encoder, from `Encoder` in the Go source.  `Encoder.write` appends
the tag byte and the big-endian payloads to the sink; the model returns the
emitted bytes.  The only encode-side failure in the model is the
`EncoderError` for NaN/infinite floats (the marshaler hook and sink
failures are outside the model). -/

/-- Error raised by `Encoder` (`godat: Marshal(...)`); the model keeps the
description prefix and drops the formatted value text. -/
inductive EncoderError where
  | mk (errorString : String)
deriving DecidableEq

/-- Model of `Encoder.encodeInt`: smallest signed tier first. -/
def encodeInt (v : Int) : ByteStr :=
  if -128 ≤ v ∧ v ≤ 127 then tInt8 :: beInt 1 v
  else if -32768 ≤ v ∧ v ≤ 32767 then tInt16 :: beInt 2 v
  else if -2147483648 ≤ v ∧ v ≤ 2147483647 then tInt32 :: beInt 4 v
  else tInt64 :: beInt 8 v

/-- Model of `Encoder.encodeUint`: smallest unsigned tier first. -/
def encodeUint (v : Nat) : ByteStr :=
  if v ≤ 255 then tUint8 :: be 1 v
  else if v ≤ 65535 then tUint16 :: be 2 v
  else if v ≤ 4294967295 then tUint32 :: be 4 v
  else tUint64 :: be 8 v

/-- Model of `Encoder.encodeFloat` on the bit pattern of the `float64`
argument: NaN/infinity fail; a finite value whose absolute value lies in
the closed range from `math.SmallestNonzeroFloat32` to `math.MaxFloat32`
is narrowed to 4 bytes, anything else (zero included) is written as
8 bytes. -/
def encodeFloat (b : Nat) : Except EncoderError ByteStr :=
  if isNaNOrInf64 b then .error (.mk "unsupported value")
  else if dle smallestNonzeroFloat32D (absD64 b) && dle (absD64 b) maxFloat32D then
    .ok (tFloat32 :: be 4 (f64ToF32bits b))
  else .ok (tFloat64 :: be 8 b)

/-- Model of `Encoder.encodeString`: length-tiered text record.  Lengths of
`2 ^ 32` and beyond are truncated by Go's `uint32(n)` conversion, which
`be 4` reproduces. -/
def encodeString (s : ByteStr) : ByteStr :=
  if s.length ≤ 255 then tString8 :: be 1 s.length ++ s
  else if s.length ≤ 65535 then tString16 :: be 2 s.length ++ s
  else tString32 :: be 4 s.length ++ s

/-- Model of `Encoder.encodeBinary`: length-tiered byte record. -/
def encodeBinary (s : ByteStr) : ByteStr :=
  if s.length ≤ 255 then tBinary8 :: be 1 s.length ++ s
  else if s.length ≤ 65535 then tBinary16 :: be 2 s.length ++ s
  else tBinary32 :: be 4 s.length ++ s

/-- Model of `Encoder.writeArrayType`: tag plus element count. -/
def writeArrayType (n : Nat) : ByteStr :=
  if n ≤ 255 then tArray8 :: be 1 n
  else if n ≤ 65535 then tArray16 :: be 2 n
  else tArray32 :: be 4 n

/-- Model of `Encoder.writeObjectType`: tag plus pair count. -/
def writeObjectType (n : Nat) : ByteStr :=
  if n ≤ 255 then tObject8 :: be 1 n
  else if n ≤ 65535 then tObject16 :: be 2 n
  else tObject32 :: be 4 n

mutual
/-- Model of `skipValue`: the recursive emptiness predicate deciding which
struct fields the encoder omits.  Float comparison with zero is IEEE `==`,
which also holds for negative zero. -/
def skipValue : GoVal → Bool
  | .vbool b => !b
  | .vint _ n => n == 0
  | .vuint _ n => n == 0
  | .vf32 b => b % 2 ^ 31 == 0
  | .vf64 b => b % 2 ^ 63 == 0
  | .vstring s => s.isEmpty
  | .vbytes s => s.isEmpty
  | .varray es => skipAll es
  | .vslice es => es.isEmpty
  | .vmap ps => ps.isEmpty
  | .vstruct fs => skipAllFields fs
termination_by structural v => v

def skipAll : List GoVal → Bool
  | [] => true
  | v :: vs => skipValue v && skipAll vs
termination_by structural vs => vs

def skipAllFields : List (ByteStr × GoVal) → Bool
  | [] => true
  | (_, v) :: fs => skipValue v && skipAllFields fs
termination_by structural fs => fs
end

mutual
/-- Model of `Encoder.EncodeValue`: dispatch on the value's kind.  A
`float32` value is widened exactly by `v.Float()` before `encodeFloat`. -/
def encodeVal : GoVal → Except EncoderError ByteStr
  | .vbool b => .ok [if b then tTrue else tFalse]
  | .vint _ n => .ok (encodeInt n)
  | .vuint _ n => .ok (encodeUint n)
  | .vf32 b => encodeFloat (f32ToF64bits b)
  | .vf64 b => encodeFloat b
  | .vstring s => .ok (encodeString s)
  | .vbytes s => .ok (encodeBinary s)
  | .varray es =>
    match encodeList es with
    | .error e => .error e
    | .ok bs => .ok (writeArrayType es.length ++ bs)
  | .vslice es =>
    match encodeList es with
    | .error e => .error e
    | .ok bs => .ok (writeArrayType es.length ++ bs)
  | .vmap ps =>
    match encodePairs ps with
    | .error e => .error e
    | .ok bs => .ok (writeObjectType ps.length ++ bs)
  | .vstruct fs =>
    match encodeFields fs with
    | .error e => .error e
    | .ok bs => .ok (writeObjectType (fs.filter (fun p => !skipValue p.2)).length ++ bs)
termination_by structural v => v

/-- Model of the element loop of `Encoder.encodeArray`. -/
def encodeList : List GoVal → Except EncoderError ByteStr
  | [] => .ok []
  | v :: vs =>
    match encodeVal v with
    | .error e => .error e
    | .ok bv =>
      match encodeList vs with
      | .error e => .error e
      | .ok bs => .ok (bv ++ bs)
termination_by structural vs => vs

/-- Model of the pair loop of `Encoder.encodeMap` (iteration in list
order; Go's map iteration order is unspecified). -/
def encodePairs : List (GoVal × GoVal) → Except EncoderError ByteStr
  | [] => .ok []
  | (k, v) :: ps =>
    match encodeVal k with
    | .error e => .error e
    | .ok bk =>
      match encodeVal v with
      | .error e => .error e
      | .ok bv =>
        match encodePairs ps with
        | .error e => .error e
        | .ok bs => .ok (bk ++ bv ++ bs)
termination_by structural ps => ps

/-- Model of the field loop of `Encoder.encodeObject`: fields whose value
satisfies `skipValue` are omitted, the others are emitted as a text key
followed by the encoded value (iteration in declaration order; Go iterates
an intermediate map in unspecified order). -/
def encodeFields : List (ByteStr × GoVal) → Except EncoderError ByteStr
  | [] => .ok []
  | (n, v) :: fs =>
    if skipValue v then encodeFields fs
    else
      match encodeVal v with
      | .error e => .error e
      | .ok bv =>
        match encodeFields fs with
        | .error e => .error e
        | .ok bs => .ok (encodeString n ++ bv ++ bs)
termination_by structural fs => fs
end

/-! The decoder, from `Decoder` in the Go source. -/

/-- Decoder-side errors.  `usage` is the `DecoderError` raised for a
non-pointer (`false`) or nil-pointer (`true`) destination; `typeErr` is
the `DecoderTypeError` carrying a description of the source value and the
destination type (the model keeps the description prefix and drops the
formatted value text); `ioErr` is an underlying source failure
(`io.EOF` / short read); `fuelOut` is an artifact of the embedding's
fuel-bounded recursion, unreachable when the fuel exceeds the record's
nesting depth. -/
inductive DecErr where
  | usage (nilPtr : Bool)
  | typeErr (value : String) (t : GoType)
  | ioErr
  | fuelOut

/-- Model of `reflect.Value.OverflowInt`: the sign-extended low `w` bits
differ from the value. -/
def overflowInt (w : W) (n : Int) : Bool :=
  !(decide (-(2 ^ (w.bits - 1)) ≤ n) && decide (n < 2 ^ (w.bits - 1)))

/-- Model of `reflect.Value.OverflowUint`. -/
def overflowUint (w : W) (n : Nat) : Bool := decide (2 ^ w.bits ≤ n)

/-- Model of `reflect.Value.OverflowFloat` on a `float32` destination:
`math.MaxFloat32 < |x|`, which holds for infinities, fails for NaN and is
an exact dyadic comparison for finite values.  A `float64` destination
never overflows. -/
def overflowFloat32 (b : Nat) : Bool :=
  if f64Exp b = 2047 then f64Mant b == 0
  else dlt maxFloat32D (absD64 b)

/-- Go's `int64(u)` on a `uint64` value: two's-complement
reinterpretation. -/
def toSigned64 (u : Nat) : Int :=
  if u < 2 ^ 63 then (u : Int) else (u : Int) - 2 ^ 64

/-- Go's `uint64(i)` on an `int64` value: two's-complement
reinterpretation. -/
def toUnsigned64 (i : Int) : Nat := (i % (2 ^ 64 : Int)).toNat

/-! Models of the `strconv` parsers used by `Decoder.decodeString`. -/

/-- Decimal value of a nonempty all-digit byte string. -/
def digitsVal (s : ByteStr) : Option Nat :=
  if s.isEmpty then none
  else if s.all (fun c => decide (48 ≤ c) && decide (c ≤ 57)) then
    some (s.foldl (fun a c => a * 10 + (c - 48)) 0)
  else none

/-- Model of `strconv.ParseBool`: exactly the twelve accepted literals. -/
def parseBoolGo (s : ByteStr) : Option Bool :=
  if s = ascii "1" ∨ s = ascii "t" ∨ s = ascii "T" ∨
     s = ascii "TRUE" ∨ s = ascii "true" ∨ s = ascii "True" then some true
  else if s = ascii "0" ∨ s = ascii "f" ∨ s = ascii "F" ∨
     s = ascii "FALSE" ∨ s = ascii "false" ∨ s = ascii "False" then some false
  else none

/-- Model of `strconv.ParseInt(s, 10, 64)`: optional sign, decimal digits,
failure outside the `int64` range. -/
def parseInt64Go (s : ByteStr) : Option Int :=
  match s with
  | [] => none
  | c :: rest =>
    let p := if c = 45 then (true, rest) else if c = 43 then (false, rest) else (false, s)
    match digitsVal p.2 with
    | none => none
    | some n =>
      if p.1 then (if n ≤ 2 ^ 63 then some (-(n : Int)) else none)
      else (if n < 2 ^ 63 then some (n : Int) else none)

/-- Model of `strconv.ParseUint(s, 10, 64)`: decimal digits only, no sign,
failure outside the `uint64` range. -/
def parseUint64Go (s : ByteStr) : Option Nat :=
  match digitsVal s with
  | none => none
  | some n => if n < 2 ^ 64 then some n else none

/-- Sign prefix of a numeric literal. -/
def splitSign : ByteStr → Bool × ByteStr
  | 43 :: r => (false, r)
  | 45 :: r => (true, r)
  | s => (false, s)

/-- Decimal significand and exponent of a float literal: returns the sign,
the digits' value `M` and the power `d` with value `± M * 10 ^ d`. -/
def parseDecimal (s : ByteStr) : Option (Bool × Nat × Int) :=
  let p1 := splitSign s
  let mp := p1.2.takeWhile (fun c => !(c == 101 || c == 69))
  let ep := p1.2.dropWhile (fun c => !(c == 101 || c == 69))
  let dexp : Option Int :=
    match ep with
    | [] => some 0
    | _ :: es =>
      let p2 := splitSign es
      match digitsVal p2.2 with
      | none => none
      | some n => some (if p2.1 then -(n : Int) else (n : Int))
  match dexp with
  | none => none
  | some d0 =>
    let ip := mp.takeWhile (fun c => !(c == 46))
    let fpr := mp.dropWhile (fun c => !(c == 46))
    let fp : Option ByteStr :=
      match fpr with
      | [] => some []
      | _ :: f => if f.any (fun c => c == 46) then none else some f
    match fp with
    | none => none
    | some f =>
      if (ip ++ f).isEmpty then none
      else if (ip ++ f).all (fun c => decide (48 ≤ c) && decide (c ≤ 57)) then
        some (p1.1, (ip ++ f).foldl (fun a c => a * 10 + (c - 48)) 0, d0 - f.length)
      else none

/-- Rounding of `N / q` to the nearest integer, ties to even. -/
def roundRatHalfEven (N q : Nat) : Nat :=
  let Q := N / q
  let r := N % q
  if q < 2 * r then Q + 1
  else if 2 * r < q then Q
  else if Q % 2 = 0 then Q else Q + 1

/-- Decision of `p / q ≥ 2 ^ e` for positive `p`, `q`. -/
def qge2 (p q : Nat) (e : Int) : Bool :=
  if 0 ≤ e then decide (q * 2 ^ e.toNat ≤ p) else decide (q ≤ p * 2 ^ (-e).toNat)

/-- Floor of the base-2 logarithm of `p / q` for positive `p`, `q` of at
most 4096 bits (larger parser inputs fall outside the model). -/
def ratlog2 (p q : Nat) : Int :=
  let c : Int := (log2f 4096 p : Int) - (log2f 4096 q : Int)
  if !qge2 p q c then c - 1 else if qge2 p q (c + 1) then c + 1 else c

/-- IEEE round-to-nearest-even of the positive rational `p / q` into a
binary float with `prec` significand bits and exponent range
`emin ..= emax`, returning the exponent and mantissa fields; `none` models
`strconv.ErrRange` (overflow to infinity or underflow to zero). -/
def ratToFloatFields (prec : Nat) (emin emax : Int) (p q : Nat) : Option Nat :=
  if p = 0 then some 0
  else
    let e := ratlog2 p q
    if e < emin then
      let n := roundRatHalfEven (p * 2 ^ ((prec : Int) - 1 - emin).toNat) q
      if n = 0 then none else some n
    else
      let sh : Int := (prec : Int) - 1 - e
      let n := if 0 ≤ sh then roundRatHalfEven (p * 2 ^ sh.toNat) q
               else roundRatHalfEven p (q * 2 ^ (-sh).toNat)
      let n1 := if n = 2 ^ prec then 2 ^ (prec - 1) else n
      let e1 := if n = 2 ^ prec then e + 1 else e
      if emax < e1 then none
      else some ((e1 - emin + 1).toNat * 2 ^ (prec - 1) + (n1 - 2 ^ (prec - 1)))

/-- ASCII lower-casing of one byte. -/
def toLowerB (c : Nat) : Nat := if 65 ≤ c ∧ c ≤ 90 then c + 32 else c

/-- Model of `strconv.ParseFloat(s, bitSize)` returning the bit pattern of
the resulting `float64` (for `bitSize` 32 the result is the `float32`
rounding, widened).  The decimal and inf/nan forms are covered; Go's
hexadecimal float syntax and digit-group underscores are outside the
model. -/
def parseFloatGo (bits32 : Bool) (s : ByteStr) : Option Nat :=
  let p1 := splitSign s
  let low := p1.2.map toLowerB
  let sgn := if p1.1 then 2 ^ 63 else 0
  if low = ascii "inf" ∨ low = ascii "infinity" then some (sgn + 2047 * 2 ^ 52)
  else if low = ascii "nan" then some (2047 * 2 ^ 52 + 2 ^ 51)
  else
    match parseDecimal s with
    | none => none
    | some (ng, M, d) =>
      let p : Nat := if 0 ≤ d then M * 10 ^ d.toNat else M
      let q : Nat := if 0 ≤ d then 1 else 10 ^ (-d).toNat
      if bits32 then
        match ratToFloatFields 24 (-126) 127 p q with
        | none => none
        | some f => some (f32ToF64bits ((if ng then 2 ^ 31 else 0) + f))
      else
        match ratToFloatFields 53 (-1022) 1023 p q with
        | none => none
        | some f => some ((if ng then 2 ^ 63 else 0) + f)

/-! Per-kind decode steps (`Decoder.decodeNil` … `Decoder.decodeBinary`).
Each one takes the destination type and the destination's current value
and returns an optional error together with the new value (and, where it
reads payload bytes, the remaining input). -/

/-- Model of `Decoder.decodeNil`: clears map and slice destinations to
the zero value, leaves every other destination untouched. -/
def decodeNil (t : GoType) (cur : GoVal) : GoVal :=
  match t with
  | .tmap _ _ => .vmap []
  | .tslice _ => .vslice []
  | _ => cur

/-- Model of `Decoder.decodeBool`. -/
def decodeBool (t : GoType) (cur : GoVal) (x : Bool) : Option DecErr × GoVal :=
  match t with
  | .tbool => (none, .vbool x)
  | _ => (some (.typeErr "bool" t), cur)

/-- Numeric wire values handed to `decodeNumber`: the `int64`, `uint64` or
`float64` produced by the payload read in `DecodeValue`. -/
inductive WireNum where
  | i (v : Int)
  | u (v : Nat)
  | f (bits : Nat)

/-- Model of `Decoder.decodeNumber`: the wire value is converted to the
destination's 64-bit kind with Go conversion semantics (two's-complement
reinterpretation between the integer kinds, truncation from float to
integer, rounding from integer to float), then the destination-width
overflow check decides between setting and a `DecoderTypeError`. -/
def decodeNumber (t : GoType) (cur : GoVal) (x : WireNum) (desc : String) :
    Option DecErr × GoVal :=
  match t with
  | .tint w =>
    let n : Int :=
      match x with
      | .i v => v
      | .u v => toSigned64 v
      | .f b => f64ToI64trunc b
    if overflowInt w n then (some (.typeErr desc t), cur) else (none, .vint w n)
  | .tuint w =>
    let n : Nat :=
      match x with
      | .u v => v
      | .i v => toUnsigned64 v
      | .f b => f64ToU64trunc b
    if overflowUint w n then (some (.typeErr desc t), cur) else (none, .vuint w n)
  | .tfloat32 =>
    let n : Nat :=
      match x with
      | .f b => b
      | .i v => i64ToF64bits v
      | .u v => natToF64bits v
    if overflowFloat32 n then (some (.typeErr desc t), cur)
    else (none, .vf32 (f64ToF32bits n))
  | .tfloat64 =>
    let n : Nat :=
      match x with
      | .f b => b
      | .i v => i64ToF64bits v
      | .u v => natToF64bits v
    (none, .vf64 n)
  | _ => (some (.typeErr desc t), cur)

/-- Model of `Decoder.decodeString` for a text record with length `n`:
sets text and byte-slice destinations, parses into bool, integer and float
destinations, fails on any other shape.  The checks that precede `next`
in the source (the slice element kind) are likewise performed before any
payload byte is consumed. -/
def decodeString (t : GoType) (cur : GoVal) (n : Nat) (input : ByteStr) :
    Option DecErr × GoVal × ByteStr :=
  match t with
  | .tstring =>
    match next n input with
    | none => (some .ioErr, cur, [])
    | some (data, rest) => (none, .vstring data, rest)
  | .tbytes =>
    match next n input with
    | none => (some .ioErr, cur, [])
    | some (data, rest) => (none, .vbytes data, rest)
  | .tslice _ => (some (.typeErr "string" t), cur, input)
  | .tbool =>
    match next n input with
    | none => (some .ioErr, cur, [])
    | some (data, rest) =>
      match parseBoolGo data with
      | none => (some (.typeErr "string" t), cur, rest)
      | some x => (none, .vbool x, rest)
  | .tint w =>
    match next n input with
    | none => (some .ioErr, cur, [])
    | some (data, rest) =>
      match parseInt64Go data with
      | none => (some (.typeErr "string" t), cur, rest)
      | some v =>
        if overflowInt w v then (some (.typeErr "string" t), cur, rest)
        else (none, .vint w v, rest)
  | .tuint w =>
    match next n input with
    | none => (some .ioErr, cur, [])
    | some (data, rest) =>
      match parseUint64Go data with
      | none => (some (.typeErr "string" t), cur, rest)
      | some v =>
        if overflowUint w v then (some (.typeErr "string" t), cur, rest)
        else (none, .vuint w v, rest)
  | .tfloat32 =>
    match next n input with
    | none => (some .ioErr, cur, [])
    | some (data, rest) =>
      match parseFloatGo true data with
      | none => (some (.typeErr "string" t), cur, rest)
      | some b =>
        if overflowFloat32 b then (some (.typeErr "string" t), cur, rest)
        else (none, .vf32 (f64ToF32bits b), rest)
  | .tfloat64 =>
    match next n input with
    | none => (some .ioErr, cur, [])
    | some (data, rest) =>
      match parseFloatGo false data with
      | none => (some (.typeErr "string" t), cur, rest)
      | some b => (none, .vf64 b, rest)
  | _ => (some (.typeErr "string" t), cur, input)

/-- Model of `Decoder.decodeBinary` for a bytes record with length `n`:
sets a byte-slice destination; every other modelled destination fails (the
struct branch only succeeds for `encoding.BinaryUnmarshaler` implementors,
which the model's plain record types are not, and its check precedes the
payload read). -/
def decodeBinary (t : GoType) (cur : GoVal) (n : Nat) (input : ByteStr) :
    Option DecErr × GoVal × ByteStr :=
  match t with
  | .tbytes =>
    match next n input with
    | none => (some .ioErr, cur, [])
    | some (data, rest) => (none, .vbytes data, rest)
  | _ => (some (.typeErr "binary" t), cur, input)

/-- Shape of the recursive decode callback threaded through the
sequence/mapping/record loops: destination type, current destination
value, input; result is an optional error, the new destination value and
the remaining input. -/
abbrev DecFn := GoType → GoVal → ByteStr → Option DecErr × GoVal × ByteStr

/-- Model of `Decoder.decodeArrayItems`: decode one record into each slot
in order, stopping at the first error; the slots already decoded (and the
partial mutation of the failing slot) are kept. -/
def decodeArrayItems (dec : DecFn) (et : GoType) :
    List GoVal → ByteStr → Option DecErr × List GoVal × ByteStr
  | [], input => (none, [], input)
  | v :: vs, input =>
    match dec et v input with
    | (some e, v1, r) => (some e, v1 :: vs, r)
    | (none, v1, r) =>
      match decodeArrayItems dec et vs r with
      | (err, vs1, r1) => (err, v1 :: vs1, r1)

/-- Model of the slice resize in `Decoder.decodeArray`: growing beyond the
capacity allocates zeroed slots (`reflect.MakeSlice` and `SetLen`), a
smaller count truncates (`SetLen`); the model takes a slice's capacity to
be its length. -/
def sliceResize (es : List GoVal) (n : Nat) (z : GoVal) : List GoVal :=
  if es.length < n then es ++ List.replicate (n - es.length) z else es.take n

/-- Model of `Decoder.decodeArray` for a sequence record with `n`
elements.  A fixed array destination fails when `n` exceeds its length,
otherwise decodes into the first `n` slots in place and zero-fills the
remaining slots; a slice destination is resized to exactly `n` and every
slot is decoded. -/
def decodeArray (dec : DecFn) (t : GoType) (cur : GoVal) (n : Nat) (input : ByteStr) :
    Option DecErr × GoVal × ByteStr :=
  match t, cur with
  | .tarray len et, .varray es =>
    if len < n then (some (.typeErr "array" t), cur, input)
    else
      match decodeArrayItems dec et (es.take n) input with
      | (some e, vs, r) => (some e, .varray (vs ++ es.drop n), r)
      | (none, vs, r) => (none, .varray (vs ++ List.replicate (len - n) (zeroVal et)), r)
  | .tslice et, .vslice es =>
    match decodeArrayItems dec et (sliceResize es n (zeroVal et)) input with
    | (err, vs, r) => (err, .vslice vs, r)
  | _, _ => (some (.typeErr "array" t), cur, input)

/-- Model of `reflect.Value.SetMapIndex` on an association list: replace
the value under an existing key, append a new key. -/
def mapInsert (ps : List (GoVal × GoVal)) (k v : GoVal) : List (GoVal × GoVal) :=
  if ps.any (fun p => p.1.beq k) then ps.map (fun p => if p.1.beq k then (p.1, v) else p)
  else ps ++ [(k, v)]

/-- Model of `Decoder.decodeObjectItems`: each pair decodes its key and
its value into fresh zero values of the map's key/value types and inserts
them; pairs inserted before a failure are kept. -/
def decodeMapItems (dec : DecFn) (kt vt : GoType) (acc : List (GoVal × GoVal)) :
    Nat → ByteStr → Option DecErr × List (GoVal × GoVal) × ByteStr
  | 0, input => (none, acc, input)
  | n + 1, input =>
    match dec kt (zeroVal kt) input with
    | (some e, _, r) => (some e, acc, r)
    | (none, k, r) =>
      match dec vt (zeroVal vt) r with
      | (some e, _, r1) => (some e, acc, r1)
      | (none, v, r1) => decodeMapItems dec kt vt (mapInsert acc k v) n r1

/-- Model of the field scan inside `Decoder.decodeObject`'s struct branch:
every field of the record is visited in order; a field whose name equals
the decoded key receives the next record (fields are modelled as
settable).  The scan reports whether any field matched. -/
def decodeFieldScan (dec : DecFn) :
    List (ByteStr × GoType) → List (ByteStr × GoVal) → ByteStr → ByteStr →
    Option DecErr × List (ByteStr × GoVal) × ByteStr × Bool
  | (n1, t1) :: fts, (n2, v1) :: xv, xk, input =>
    if n1 = xk then
      match dec t1 v1 input with
      | (some e, v2, r) => (some e, (n2, v2) :: xv, r, true)
      | (none, v2, r) =>
        match decodeFieldScan dec fts xv xk r with
        | (err, xv1, r1, _) => (err, (n2, v2) :: xv1, r1, true)
    else
      match decodeFieldScan dec fts xv xk input with
      | (err, xv1, r1, found) => (err, (n2, v1) :: xv1, r1, found)
  | _, xv, _, input => (none, xv, input, false)

/-- Model of the pair loop inside `Decoder.decodeObject`'s struct branch:
each pair decodes its key into a fresh empty string, then scans the
record's fields for an exact name match; an unmatched key fails the whole
record before its value is read. -/
def decodeStructPairs (dec : DecFn) (fts : List (ByteStr × GoType)) :
    List (ByteStr × GoVal) → Nat → ByteStr → Option DecErr × List (ByteStr × GoVal) × ByteStr
  | xv, 0, input => (none, xv, input)
  | xv, n + 1, input =>
    match dec .tstring (.vstring []) input with
    | (some e, _, r) => (some e, xv, r)
    | (none, kv, r) =>
      let xk := match kv with | .vstring s => s | _ => []
      match decodeFieldScan dec fts xv xk r with
      | (some e, xv1, r1, _) => (some e, xv1, r1)
      | (none, xv1, r1, found) =>
        if found then decodeStructPairs dec fts xv1 n r1
        else (some (.typeErr "object" (.tstruct fts)), xv1, r1)

/-- Model of `Decoder.decodeObject` for a mapping record with `n` pairs:
a map destination is cleared (or allocated) and filled; a struct
destination is rebuilt in a fresh zero value which replaces the
destination only after every pair decoded, so any failure leaves the
destination unchanged. -/
def decodeObject (dec : DecFn) (t : GoType) (cur : GoVal) (n : Nat) (input : ByteStr) :
    Option DecErr × GoVal × ByteStr :=
  match t, cur with
  | .tmap kt vt, .vmap _ =>
    match decodeMapItems dec kt vt [] n input with
    | (err, ps, r) => (err, .vmap ps, r)
  | .tstruct fts, .vstruct fs =>
    match decodeStructPairs dec fts (zeroFields fts) n input with
    | (some e, _, r) => (some e, .vstruct fs, r)
    | (none, xv, r) => (none, .vstruct xv, r)
  | _, _ => (some (.typeErr "object" t), cur, input)

/-- Model of `Decoder.DecodeValue` after the pointer checks: read one tag
byte, then dispatch.  Unrecognized tags consume nothing further and leave
the destination unchanged, with no error.  The fuel argument bounds the
nesting depth of the record (an embedding artifact). -/
def decodeValue : Nat → DecFn
  | 0 => fun _ cur input => (some .fuelOut, cur, input)
  | fuel + 1 => fun t cur input =>
    match input with
    | [] => (some .ioErr, cur, [])
    | tag :: rest =>
      if tag = tNil then (none, decodeNil t cur, rest)
      else if tag = tTrue then
        match decodeBool t cur true with
        | (err, v) => (err, v, rest)
      else if tag = tFalse then
        match decodeBool t cur false with
        | (err, v) => (err, v, rest)
      else if tag = tInt8 then
        match readK 1 rest with
        | none => (some .ioErr, cur, [])
        | some (p, r) =>
          match decodeNumber t cur (.i (beToInt 1 p)) "int8" with
          | (err, v) => (err, v, r)
      else if tag = tInt16 then
        match readK 2 rest with
        | none => (some .ioErr, cur, [])
        | some (p, r) =>
          match decodeNumber t cur (.i (beToInt 2 p)) "int16" with
          | (err, v) => (err, v, r)
      else if tag = tInt32 then
        match readK 4 rest with
        | none => (some .ioErr, cur, [])
        | some (p, r) =>
          match decodeNumber t cur (.i (beToInt 4 p)) "int32" with
          | (err, v) => (err, v, r)
      else if tag = tInt64 then
        match readK 8 rest with
        | none => (some .ioErr, cur, [])
        | some (p, r) =>
          match decodeNumber t cur (.i (beToInt 8 p)) "int64" with
          | (err, v) => (err, v, r)
      else if tag = tUint8 then
        match readK 1 rest with
        | none => (some .ioErr, cur, [])
        | some (p, r) =>
          match decodeNumber t cur (.u (beToNat p)) "uint8" with
          | (err, v) => (err, v, r)
      else if tag = tUint16 then
        match readK 2 rest with
        | none => (some .ioErr, cur, [])
        | some (p, r) =>
          match decodeNumber t cur (.u (beToNat p)) "uint16" with
          | (err, v) => (err, v, r)
      else if tag = tUint32 then
        match readK 4 rest with
        | none => (some .ioErr, cur, [])
        | some (p, r) =>
          match decodeNumber t cur (.u (beToNat p)) "uint32" with
          | (err, v) => (err, v, r)
      else if tag = tUint64 then
        match readK 8 rest with
        | none => (some .ioErr, cur, [])
        | some (p, r) =>
          match decodeNumber t cur (.u (beToNat p)) "uint64" with
          | (err, v) => (err, v, r)
      else if tag = tFloat32 then
        match readK 4 rest with
        | none => (some .ioErr, cur, [])
        | some (p, r) =>
          match decodeNumber t cur (.f (f32ToF64bits (beToNat p))) "float32" with
          | (err, v) => (err, v, r)
      else if tag = tFloat64 then
        match readK 8 rest with
        | none => (some .ioErr, cur, [])
        | some (p, r) =>
          match decodeNumber t cur (.f (beToNat p)) "float64" with
          | (err, v) => (err, v, r)
      else if tag = tString8 then
        match readK 1 rest with
        | none => (some .ioErr, cur, [])
        | some (p, r) => decodeString t cur (beToNat p) r
      else if tag = tString16 then
        match readK 2 rest with
        | none => (some .ioErr, cur, [])
        | some (p, r) => decodeString t cur (beToNat p) r
      else if tag = tString32 then
        match readK 4 rest with
        | none => (some .ioErr, cur, [])
        | some (p, r) => decodeString t cur (beToNat p) r
      else if tag = tBinary8 then
        match readK 1 rest with
        | none => (some .ioErr, cur, [])
        | some (p, r) => decodeBinary t cur (beToNat p) r
      else if tag = tBinary16 then
        match readK 2 rest with
        | none => (some .ioErr, cur, [])
        | some (p, r) => decodeBinary t cur (beToNat p) r
      else if tag = tBinary32 then
        match readK 4 rest with
        | none => (some .ioErr, cur, [])
        | some (p, r) => decodeBinary t cur (beToNat p) r
      else if tag = tArray8 then
        match readK 1 rest with
        | none => (some .ioErr, cur, [])
        | some (p, r) => decodeArray (decodeValue fuel) t cur (beToNat p) r
      else if tag = tArray16 then
        match readK 2 rest with
        | none => (some .ioErr, cur, [])
        | some (p, r) => decodeArray (decodeValue fuel) t cur (beToNat p) r
      else if tag = tArray32 then
        match readK 4 rest with
        | none => (some .ioErr, cur, [])
        | some (p, r) => decodeArray (decodeValue fuel) t cur (beToNat p) r
      else if tag = tObject8 then
        match readK 1 rest with
        | none => (some .ioErr, cur, [])
        | some (p, r) => decodeObject (decodeValue fuel) t cur (beToNat p) r
      else if tag = tObject16 then
        match readK 2 rest with
        | none => (some .ioErr, cur, [])
        | some (p, r) => decodeObject (decodeValue fuel) t cur (beToNat p) r
      else if tag = tObject32 then
        match readK 4 rest with
        | none => (some .ioErr, cur, [])
        | some (p, r) => decodeObject (decodeValue fuel) t cur (beToNat p) r
      else (none, cur, rest)

/-- Destination handed to the public `Decode` entry point: Go's pointer
checks distinguish a non-pointer argument, a nil pointer, and a valid
pointer carrying the pointee's type and current value. -/
inductive DecodeDest where
  | nonPointer (t : GoType)
  | nilPointer (t : GoType)
  | pointer (t : GoType) (cur : GoVal)

/-- Model of the entry of `Decoder.DecodeValue`: a non-pointer or nil
pointer destination fails with a `DecoderError` before any byte of the
source is consumed; a valid pointer decodes one record into the
pointee. -/
def decodeTop (fuel : Nat) (dst : DecodeDest) (input : ByteStr) :
    Option DecErr × DecodeDest × ByteStr :=
  match dst with
  | .nonPointer t => (some (.usage false), .nonPointer t, input)
  | .nilPointer t => (some (.usage true), .nilPointer t, input)
  | .pointer t cur =>
    match decodeValue fuel t cur input with
    | (err, v, r) => (err, .pointer t v, r)

/-! Well-formedness and side predicates used by the theorems. -/

/-- Value fits the signed width (the complement of `overflowInt`). -/
def intFits (w : W) (n : Int) : Bool :=
  decide (-(2 ^ (w.bits - 1)) ≤ n) && decide (n < 2 ^ (w.bits - 1))

/-- Value fits the unsigned width (the complement of `overflowUint`). -/
def uintFits (w : W) (n : Nat) : Bool := decide (n < 2 ^ w.bits)

/-- Pairwise distinctness of the names of a field list. -/
def fieldNamesDistinct {α : Type} : List (ByteStr × α) → Bool
  | [] => true
  | (n, _) :: fs => fs.all (fun p => !(p.1 == n)) && fieldNamesDistinct fs

/-- Pairwise distinctness of map keys under Go value equality. -/
def mapKeysDistinct : List (GoVal × GoVal) → Bool
  | [] => true
  | (k, _) :: ps => ps.all (fun p => !(k.beq p.1)) && mapKeysDistinct ps

mutual
/-- A value is well formed at a type when it has that shape, its integers
fit their width, its bit patterns and lengths are in range (lengths stay
below the `2 ^ 32` ceiling of the 4-byte tier), its map keys are distinct
and its record fields line up with the record type. -/
def WF : GoType → GoVal → Bool
  | .tbool, .vbool _ => true
  | .tint w, .vint w1 n => w == w1 && intFits w n
  | .tuint w, .vuint w1 n => w == w1 && uintFits w n
  | .tfloat32, .vf32 b => decide (b < 2 ^ 32)
  | .tfloat64, .vf64 b => decide (b < 2 ^ 64)
  | .tstring, .vstring s => s.all (fun c => decide (c < 256)) && decide (s.length < 2 ^ 32)
  | .tbytes, .vbytes s => s.all (fun c => decide (c < 256)) && decide (s.length < 2 ^ 32)
  | .tarray len et, .varray es => es.length == len && decide (len < 2 ^ 32) && WFList et es
  | .tslice et, .vslice es => decide (es.length < 2 ^ 32) && WFList et es
  | .tmap kt vt, .vmap ps =>
    decide (ps.length < 2 ^ 32) && mapKeysDistinct ps && WFPairs kt vt ps
  | .tstruct fts, .vstruct fs =>
    decide (fts.length < 2 ^ 32) && fts.all (fun p => decide (p.1.length < 2 ^ 32)) &&
      fieldNamesDistinct fts && WFFields fts fs
  | _, _ => false
termination_by structural _ v => v

def WFList (et : GoType) : List GoVal → Bool
  | [] => true
  | v :: vs => WF et v && WFList et vs
termination_by structural vs => vs

def WFPairs (kt vt : GoType) : List (GoVal × GoVal) → Bool
  | [] => true
  | (k, v) :: ps => WF kt k && WF vt v && WFPairs kt vt ps
termination_by structural ps => ps

def WFFields : List (ByteStr × GoType) → List (ByteStr × GoVal) → Bool
  | [], [] => true
  | (n1, t) :: fts, (n2, v) :: fs => n1 == n2 && WF t v && WFFields fts fs
  | _, _ => false
termination_by structural _ fs => fs
end

/-- Finiteness of a binary64 pattern. -/
def f64Finite (b : Nat) : Bool := !(f64Exp b == 2047)

/-- Finiteness of a binary32 pattern. -/
def f32Finite (b : Nat) : Bool := !(f32Exp b == 255)

/-- A `float64` value either avoids the 4-byte tier or survives the
narrowing to `float32` exactly. -/
def f64Exact32 (b : Nat) : Bool :=
  if dle smallestNonzeroFloat32D (absD64 b) && dle (absD64 b) maxFloat32D then
    f32ToF64bits (f64ToF32bits b) == b
  else true

mutual
/-- Restriction on float contents under which the round trip is exact and
stated with plain equality: floats are finite (NaN/infinity would fail to
encode), are not IEEE negative zero (Go equates `-0.0` with `0.0`, so a
negative-zero record field is omitted on encode and reappears as `+0.0`),
and `float64` values in the 4-byte tier are exactly representable in 32
bits. -/
def Good : GoVal → Bool
  | .vf32 b => f32Finite b && !(b == 2 ^ 31)
  | .vf64 b => f64Finite b && !(b == 2 ^ 63) && f64Exact32 b
  | .varray es => GoodList es
  | .vslice es => GoodList es
  | .vmap ps => GoodPairs ps
  | .vstruct fs => GoodFields fs
  | _ => true
termination_by structural v => v

def GoodList : List GoVal → Bool
  | [] => true
  | v :: vs => Good v && GoodList vs
termination_by structural vs => vs

def GoodPairs : List (GoVal × GoVal) → Bool
  | [] => true
  | (k, v) :: ps => Good k && Good v && GoodPairs ps
termination_by structural ps => ps

def GoodFields : List (ByteStr × GoVal) → Bool
  | [] => true
  | (_, v) :: fs => Good v && GoodFields fs
termination_by structural fs => fs
end

mutual
/-- Nesting depth of a value; `decodeValue` with fuel at least `rank v`
never runs out of fuel while decoding the encoding of `v`. -/
def rank : GoVal → Nat
  | .varray es => 1 + rankList es
  | .vslice es => 1 + rankList es
  | .vmap ps => 1 + rankPairs ps
  | .vstruct fs => 1 + rankFields fs
  | _ => 1
termination_by structural v => v

def rankList : List GoVal → Nat
  | [] => 0
  | v :: vs => max (rank v) (rankList vs)
termination_by structural vs => vs

def rankPairs : List (GoVal × GoVal) → Nat
  | [] => 0
  | (k, v) :: ps => max (max (rank k) (rank v)) (rankPairs ps)
termination_by structural ps => ps

def rankFields : List (ByteStr × GoVal) → Nat
  | [] => 0
  | (_, v) :: fs => max (rank v) (rankFields fs)
termination_by structural fs => fs
end

mutual
/-- The encoding of the value does not end with an empty text/bytes
record.  A `bytes.Reader` positioned at end of stream reports `io.EOF`
even for the zero-length read such a record's payload triggers, so a
record stream ending in an empty text/bytes payload fails to decode at
the very end of the input. -/
def noTrailEmpty : GoVal → Bool
  | .vstring s => !s.isEmpty
  | .vbytes s => !s.isEmpty
  | .varray es => noTrailList es
  | .vslice es => noTrailList es
  | .vmap ps => noTrailPairs ps
  | .vstruct fs => noTrailFields fs
  | _ => true
termination_by structural v => v

def noTrailList : List GoVal → Bool
  | [] => true
  | [v] => noTrailEmpty v
  | _ :: vs => noTrailList vs
termination_by structural vs => vs

def noTrailPairs : List (GoVal × GoVal) → Bool
  | [] => true
  | [(_, v)] => noTrailEmpty v
  | _ :: ps => noTrailPairs ps
termination_by structural ps => ps

def noTrailFields : List (ByteStr × GoVal) → Bool
  | [] => true
  | (_, v) :: fs =>
    if skipAllFields fs then (if skipValue v then true else noTrailEmpty v)
    else noTrailFields fs
termination_by structural fs => fs
end

/-- Lookup of a field by name in an association list. -/
def lookupField {α : Type} : List (ByteStr × α) → ByteStr → Option α
  | [], _ => none
  | (n, x) :: fs, k => if n = k then some x else lookupField fs k

/-- Replacement of the value under a name in a field list (no-op when the
name is absent). -/
def setField : List (ByteStr × GoVal) → ByteStr → GoVal → List (ByteStr × GoVal)
  | [], _, _ => []
  | (n, x) :: fs, k, v =>
    if n = k then (n, v) :: setField fs k v else (n, x) :: setField fs k v

/-- Sequential field updates, one per decoded wire pair. -/
def updateFields (xv : List (ByteStr × GoVal)) : List (ByteStr × GoVal) → List (ByteStr × GoVal)
  | [] => xv
  | (n, v) :: ps => updateFields (setField xv n v) ps

/-- Claim C4's spec-side width rule for signed values, written from the
spec's threshold list: the smallest signed tier whose range covers the
value. -/
def specSignedTierTag (v : Int) : Nat :=
  if -128 ≤ v ∧ v ≤ 127 then tInt8
  else if -32768 ≤ v ∧ v ≤ 32767 then tInt16
  else if -2147483648 ≤ v ∧ v ≤ 2147483647 then tInt32
  else tInt64

/-- Claim C4's spec-side width rule for unsigned values: thresholds at
255, 65535 and `2 ^ 32 - 1`. -/
def specUnsignedTierTag (u : Nat) : Nat :=
  if u ≤ 255 then tUint8
  else if u ≤ 65535 then tUint16
  else if u ≤ 4294967295 then tUint32
  else tUint64

/-! Ground values of the tag bytes. -/

@[simp] lemma tNil_val : tNil = 90 := rfl
@[simp] lemma tTrue_val : tTrue = 84 := rfl
@[simp] lemma tFalse_val : tFalse = 70 := rfl
@[simp] lemma tInt8_val : tInt8 = 73 := rfl
@[simp] lemma tInt16_val : tInt16 = 99 := rfl
@[simp] lemma tInt32_val : tInt32 = 125 := rfl
@[simp] lemma tInt64_val : tInt64 = 151 := rfl
@[simp] lemma tUint8_val : tUint8 = 85 := rfl
@[simp] lemma tUint16_val : tUint16 = 111 := rfl
@[simp] lemma tUint32_val : tUint32 = 137 := rfl
@[simp] lemma tUint64_val : tUint64 = 163 := rfl
@[simp] lemma tFloat32_val : tFloat32 = 120 := rfl
@[simp] lemma tFloat64_val : tFloat64 = 146 := rfl
@[simp] lemma tString8_val : tString8 = 83 := rfl
@[simp] lemma tString16_val : tString16 = 109 := rfl
@[simp] lemma tString32_val : tString32 = 135 := rfl
@[simp] lemma tArray8_val : tArray8 = 65 := rfl
@[simp] lemma tArray16_val : tArray16 = 91 := rfl
@[simp] lemma tArray32_val : tArray32 = 117 := rfl
@[simp] lemma tObject8_val : tObject8 = 79 := rfl
@[simp] lemma tObject16_val : tObject16 = 105 := rfl
@[simp] lemma tObject32_val : tObject32 = 131 := rfl
@[simp] lemma tBinary8_val : tBinary8 = 66 := rfl
@[simp] lemma tBinary16_val : tBinary16 = 92 := rfl
@[simp] lemma tBinary32_val : tBinary32 = 118 := rfl

/-! Byte-level lemmas. -/

lemma be_length (k n : Nat) : (be k n).length = k := by
  induction k generalizing n with
  | zero => rfl
  | succ k ih => simp [be, ih]

lemma beToNat_append_one (bs : ByteStr) (b : Nat) :
    beToNat (bs ++ [b]) = beToNat bs * 256 + b := by
  simp [beToNat, List.foldl_append]

lemma beToNat_be (k n : Nat) (h : n < 2 ^ (8 * k)) : beToNat (be k n) = n := by
  induction k generalizing n with
  | zero =>
    simp [be, beToNat]
    omega
  | succ k ih =>
    have h2 : n / 256 < 2 ^ (8 * k) := by
      have : (2 : Nat) ^ (8 * (k + 1)) = 2 ^ (8 * k) * 256 := by ring
      omega
    simp [be, beToNat_append_one, ih _ h2]
    omega

lemma readK_exact (p r : ByteStr) (k : Nat) (h : p.length = k) :
    readK k (p ++ r) = some (p, r) := by
  subst h
  simp [readK, List.take_left, List.drop_left]

lemma next_exact (s r : ByteStr) (h : (s ++ r) ≠ []) :
    next s.length (s ++ r) = some (s, r) := by
  have hlen : s.length ≤ (s ++ r).length := by simp
  simp only [next, List.isEmpty_iff, h, if_false]
  rw [List.take_left, List.drop_left]
  simp [Nat.sub_eq_zero_of_le hlen]

lemma beInt_toInt (k : Nat) (hk : 0 < k) (i : Int)
    (h1 : -(2 ^ (8 * k - 1)) ≤ i) (h2 : i < 2 ^ (8 * k - 1)) :
    beToInt k (beInt k i) = i := by
  have hpow : (2 : Int) ^ (8 * k) = 2 ^ (8 * k - 1) * 2 := by
    rw [← pow_succ]
    congr 1
    omega
  have hmod : (0 : Int) ≤ i % (2 ^ (8 * k) : Int) := Int.emod_nonneg i (by positivity)
  have hmodlt : i % (2 ^ (8 * k) : Int) < 2 ^ (8 * k) := Int.emod_lt_of_pos i (by positivity)
  have hval : i % (2 ^ (8 * k) : Int) = if 0 ≤ i then i else i + 2 ^ (8 * k) := by
    split
    · exact Int.emod_eq_of_lt (by assumption) (by omega)
    · have ha : (i + 2 ^ (8 * k)) % (2 ^ (8 * k) : Int) = i % (2 ^ (8 * k) : Int) := by
        have h1 := Int.add_mul_emod_self_left (a := i) (b := (2 ^ (8 * k) : Int)) (c := 1)
        rw [mul_one] at h1
        exact h1
      have hb : (i + 2 ^ (8 * k)) % (2 ^ (8 * k) : Int) = i + 2 ^ (8 * k) :=
        Int.emod_eq_of_lt (by omega) (by omega)
      omega
  have hnat : (((i % (2 ^ (8 * k) : Int)).toNat : Int)) = i % (2 ^ (8 * k) : Int) :=
    Int.toNat_of_nonneg hmod
  have hlt : (i % (2 ^ (8 * k) : Int)).toNat < 2 ^ (8 * k) := by
    have : ((2 : Nat) ^ (8 * k) : Int) = (2 : Int) ^ (8 * k) := by push_cast; ring
    omega
  unfold beInt beToInt
  rw [beToNat_be _ _ hlt]
  have hcast : ((2 : Nat) ^ (8 * k - 1) : Int) = (2 : Int) ^ (8 * k - 1) := by push_cast; ring
  have hcast2 : ((2 : Nat) ^ (8 * k) : Int) = (2 : Int) ^ (8 * k) := by push_cast; ring
  split
  · omega
  · omega

/-! Lemmas on the float primitives. -/

lemma log2f_spec (f : Nat) : ∀ n, 0 < n → n < 2 ^ f →
    2 ^ log2f f n ≤ n ∧ n < 2 ^ (log2f f n + 1) := by
  induction f with
  | zero => intro n h1 h2; omega
  | succ f ih =>
    intro n h1 h2
    by_cases hn : n < 2
    · simp [log2f, hn]
      omega
    · have hd : 0 < n / 2 := by omega
      have hd2 : n / 2 < 2 ^ f := by
        have : (2 : Nat) ^ (f + 1) = 2 ^ f * 2 := by ring
        omega
      obtain ⟨ha, hb⟩ := ih (n / 2) hd hd2
      simp only [log2f, hn, if_false]
      constructor
      · calc 2 ^ (log2f f (n / 2) + 1) = 2 ^ log2f f (n / 2) * 2 := by ring
        _ ≤ n / 2 * 2 := by omega
        _ ≤ n := by omega
      · calc n < (n / 2 + 1) * 2 := by omega
        _ ≤ 2 ^ (log2f f (n / 2) + 1) * 2 := by omega
        _ = 2 ^ (log2f f (n / 2) + 1 + 1) := by ring

lemma roundHalfEven_mul (a k : Nat) : roundHalfEven (a * 2 ^ k) k = a := by
  rcases Nat.eq_zero_or_pos k with hk | hk
  · subst hk; simp [roundHalfEven]
  · have hne : k ≠ 0 := by omega
    have hdvd : a * 2 ^ k % 2 ^ k = 0 := Nat.mul_mod_left a (2 ^ k)
    have hdiv : a * 2 ^ k / 2 ^ k = a := Nat.mul_div_cancel a (by positivity)
    have hhalf : 0 < 2 ^ (k - 1) := by positivity
    simp [roundHalfEven, hne, hdvd, hdiv, hhalf]

lemma f64fields (s E M : Nat) (hs : s < 2) (hE : E < 2048) (hM : M < 2 ^ 52) :
    f64SignB (s * 2 ^ 63 + E * 2 ^ 52 + M) = s ∧
    f64Exp (s * 2 ^ 63 + E * 2 ^ 52 + M) = E ∧
    f64Mant (s * 2 ^ 63 + E * 2 ^ 52 + M) = M := by
  unfold f64SignB f64Exp f64Mant
  norm_num
  omega

lemma f32fields (s E M : Nat) (hs : s < 2) (hE : E < 256) (hM : M < 2 ^ 23) :
    f32SignB (s * 2 ^ 31 + E * 2 ^ 23 + M) = s ∧
    f32Exp (s * 2 ^ 31 + E * 2 ^ 23 + M) = E ∧
    f32Mant (s * 2 ^ 31 + E * 2 ^ 23 + M) = M := by
  unfold f32SignB f32Exp f32Mant
  norm_num
  omega

lemma f32decomp (b : Nat) (h : b < 2 ^ 32) :
    b = f32SignB b * 2 ^ 31 + f32Exp b * 2 ^ 23 + f32Mant b ∧
    f32SignB b < 2 ∧ f32Exp b < 256 ∧ f32Mant b < 2 ^ 23 := by
  unfold f32SignB f32Exp f32Mant
  norm_num
  omega

lemma f32_sub_bounds (m : Nat) (hm1 : 0 < m) (hm : m < 2 ^ 23) :
    2 ^ log2f 32 m ≤ m ∧ m < 2 ^ (log2f 32 m + 1) ∧ log2f 32 m < 23 ∧
    2 ^ 52 ≤ m * 2 ^ (52 - log2f 32 m) ∧ m * 2 ^ (52 - log2f 32 m) < 2 ^ 53 := by
  have hm32 : m < 2 ^ 32 := by omega
  obtain ⟨h1, h2⟩ := log2f_spec 32 m hm1 hm32
  have hj : log2f 32 m < 23 := by
    by_contra hc
    have : (2 : Nat) ^ 23 ≤ 2 ^ log2f 32 m := Nat.pow_le_pow_right (by norm_num) (by omega)
    omega
  refine ⟨h1, h2, hj, ?_, ?_⟩
  · calc (2 : Nat) ^ 52 = 2 ^ log2f 32 m * 2 ^ (52 - log2f 32 m) := by
          rw [← pow_add]; congr 1; omega
    _ ≤ m * 2 ^ (52 - log2f 32 m) := Nat.mul_le_mul_right _ h1
  · calc m * 2 ^ (52 - log2f 32 m) < 2 ^ (log2f 32 m + 1) * 2 ^ (52 - log2f 32 m) := by
          have hp : (0 : Nat) < 2 ^ (52 - log2f 32 m) := by positivity
          exact Nat.mul_lt_mul_of_lt_of_le h2 (le_refl _) hp
    _ = 2 ^ (log2f 32 m + 1 + (52 - log2f 32 m)) := by rw [← pow_add]
    _ = 2 ^ 53 := by congr 1; omega

lemma f32ToF64bits_eq (s e m : Nat) (hs : s < 2) (he : e < 255) (hm : m < 2 ^ 23) :
    f32ToF64bits (s * 2 ^ 31 + e * 2 ^ 23 + m) =
      if e = 0 then
        (if m = 0 then s * 2 ^ 63
         else s * 2 ^ 63 + (log2f 32 m + 874) * 2 ^ 52 + (m * 2 ^ (52 - log2f 32 m) - 2 ^ 52))
      else s * 2 ^ 63 + (e + 896) * 2 ^ 52 + m * 2 ^ 29 := by
  obtain ⟨h1, h2, h3⟩ := f32fields s e m hs (by omega) hm
  unfold f32ToF64bits
  rw [h1, h2, h3]
  rw [if_neg (by omega)]

lemma dle_of_le (x y : Nat) (e f : Int) (hef : e ≤ f) (h : x ≤ y * 2 ^ (f - e).toNat) :
    dle (x, e) (y, f) = true := by
  simp [dle, hef, h]

lemma f32_widen_narrow_comp (s e m : Nat) (hs : s < 2) (he : e < 255) (hm : m < 2 ^ 23) :
    f64ToF32bits (f32ToF64bits (s * 2 ^ 31 + e * 2 ^ 23 + m)) = s * 2 ^ 31 + e * 2 ^ 23 + m := by
  rw [f32ToF64bits_eq s e m hs he hm]
  by_cases he0 : e = 0
  · subst he0
    by_cases hm0 : m = 0
    · subst hm0
      rw [if_pos rfl, if_pos rfl]
      interval_cases s
      · decide
      · decide
    · rw [if_pos rfl, if_neg hm0]
      obtain ⟨hj1, hj2, hj3, hj4, hj5⟩ := f32_sub_bounds m (by omega) hm
      set j := log2f 32 m with hjdef
      have hM : m * 2 ^ (52 - j) - 2 ^ 52 < 2 ^ 52 := by omega
      obtain ⟨g1, g2, g3⟩ :=
        f64fields s (j + 874) (m * 2 ^ (52 - j) - 2 ^ 52) hs (by omega) hM
      unfold f64ToF32bits
      rw [g1, g2, g3]
      rw [if_neg (by omega)]
      rw [if_neg (by omega)]
      rw [if_pos (by omega : ((j + 874 : Nat) : Int) - 1075 + 29 < -149)]
      have hfix : 2 ^ 52 + (m * 2 ^ (52 - j) - 2 ^ 52) = m * 2 ^ (52 - j) := by omega
      have hk : 926 - (j + 874) = 52 - j := by omega
      rw [hfix, hk, roundHalfEven_mul]
      omega
  · rw [if_neg he0]
    have hM : m * 2 ^ 29 < 2 ^ 52 := by omega
    obtain ⟨g1, g2, g3⟩ := f64fields s (e + 896) (m * 2 ^ 29) hs (by omega) hM
    unfold f64ToF32bits
    rw [g1, g2, g3]
    rw [if_neg (by omega)]
    rw [if_neg (by omega)]
    rw [if_neg (by omega : ¬(((e + 896 : Nat) : Int) - 1075 + 29 < -149))]
    have hsplit : 2 ^ 52 + m * 2 ^ 29 = (2 ^ 23 + m) * 2 ^ 29 := by ring
    rw [hsplit, roundHalfEven_mul]
    have hne : ¬(2 ^ 23 + m = 2 ^ 24) := by omega
    rw [if_neg hne]
    rw [if_neg (by omega : ¬((255 : Int) ≤ ((e + 896 : Nat) : Int) - 1075 + 29 + 150))]
    have htn : (((e + 896 : Nat) : Int) - 1075 + 29 + 150).toNat = e := by omega
    rw [htn]
    omega

lemma f32_widen_narrow (b : Nat) (hb : b < 2 ^ 32) (hf : f32Exp b ≠ 255) :
    f64ToF32bits (f32ToF64bits b) = b := by
  obtain ⟨hdec, hs, he, hm⟩ := f32decomp b hb
  rw [hdec]
  exact f32_widen_narrow_comp _ _ _ hs (by omega) hm

lemma f32_widen_le_max_comp (s e m : Nat) (hs : s < 2) (he : e < 255) (hm : m < 2 ^ 23) :
    dle (absD64 (f32ToF64bits (s * 2 ^ 31 + e * 2 ^ 23 + m))) maxFloat32D = true := by
  rw [f32ToF64bits_eq s e m hs he hm]
  unfold maxFloat32D
  by_cases he0 : e = 0
  · subst he0
    by_cases hm0 : m = 0
    · subst hm0
      rw [if_pos rfl, if_pos rfl]
      have hz := f64fields s 0 0 hs (by norm_num) (by positivity)
      simp only [Nat.zero_mul, Nat.add_zero] at hz
      unfold absD64
      rw [hz.2.1, hz.2.2, if_pos rfl]
      exact dle_of_le 0 _ _ _ (by omega) (Nat.zero_le _)
    · rw [if_pos rfl, if_neg hm0]
      obtain ⟨hj1, hj2, hj3, hj4, hj5⟩ := f32_sub_bounds m (by omega) hm
      set j := log2f 32 m with hjdef
      have hM : m * 2 ^ (52 - j) - 2 ^ 52 < 2 ^ 52 := by omega
      obtain ⟨g1, g2, g3⟩ :=
        f64fields s (j + 874) (m * 2 ^ (52 - j) - 2 ^ 52) hs (by omega) hM
      unfold absD64
      rw [g2, g3, if_neg (by omega)]
      have hfix : 2 ^ 52 + (m * 2 ^ (52 - j) - 2 ^ 52) = m * 2 ^ (52 - j) := by omega
      rw [hfix]
      refine dle_of_le _ _ _ _ (by omega) ?_
      have htn : ((104 : Int) - (((j + 874 : Nat) : Int) - 1075)).toNat = 305 - j := by omega
      rw [htn]
      calc m * 2 ^ (52 - j) ≤ 2 ^ 53 := by omega
      _ ≤ 2 ^ (305 - j) := Nat.pow_le_pow_right (by norm_num) (by omega)
      _ ≤ (2 ^ 24 - 1) * 2 ^ (305 - j) := Nat.le_mul_of_pos_left _ (by norm_num)
  · rw [if_neg he0]
    have hM : m * 2 ^ 29 < 2 ^ 52 := by omega
    obtain ⟨g1, g2, g3⟩ := f64fields s (e + 896) (m * 2 ^ 29) hs (by omega) hM
    unfold absD64
    rw [g2, g3, if_neg (by omega)]
    refine dle_of_le _ _ _ _ (by omega) ?_
    have htn : ((104 : Int) - (((e + 896 : Nat) : Int) - 1075)).toNat = 283 - e := by omega
    rw [htn]
    calc 2 ^ 52 + m * 2 ^ 29 ≤ (2 ^ 24 - 1) * 2 ^ 29 := by omega
    _ ≤ (2 ^ 24 - 1) * 2 ^ (283 - e) :=
        Nat.mul_le_mul_left _ (Nat.pow_le_pow_right (by norm_num) (by omega))

lemma f32_widen_le_max (b : Nat) (hb : b < 2 ^ 32) (hf : f32Exp b ≠ 255) :
    dle (absD64 (f32ToF64bits b)) maxFloat32D = true := by
  obtain ⟨hdec, hs, he, hm⟩ := f32decomp b hb
  rw [hdec]
  exact f32_widen_le_max_comp _ _ _ hs (by omega) hm

/-! Dispatch lemmas: one unfolding of `decodeValue` per recognized tag. -/

lemma dv_base (t : GoType) (cur : GoVal) (input : ByteStr) :
    decodeValue 0 t cur input = (some .fuelOut, cur, input) := rfl

lemma dv_empty (f : Nat) (t : GoType) (cur : GoVal) :
    decodeValue (f + 1) t cur [] = (some .ioErr, cur, []) := rfl

lemma dv_nil (f : Nat) (t : GoType) (cur : GoVal) (rest : ByteStr) :
    decodeValue (f + 1) t cur (90 :: rest) = (none, decodeNil t cur, rest) := rfl

lemma dv_true (f : Nat) (t : GoType) (cur : GoVal) (rest : ByteStr) :
    decodeValue (f + 1) t cur (84 :: rest) =
      ((decodeBool t cur true).1, (decodeBool t cur true).2, rest) := rfl

lemma dv_false (f : Nat) (t : GoType) (cur : GoVal) (rest : ByteStr) :
    decodeValue (f + 1) t cur (70 :: rest) =
      ((decodeBool t cur false).1, (decodeBool t cur false).2, rest) := rfl

lemma dv_int8 (f : Nat) (t : GoType) (cur : GoVal) (rest : ByteStr) :
    decodeValue (f + 1) t cur (73 :: rest) =
      (match readK 1 rest with
       | none => (some .ioErr, cur, [])
       | some (p, r) =>
         ((decodeNumber t cur (.i (beToInt 1 p)) "int8").1, (decodeNumber t cur (.i (beToInt 1 p)) "int8").2, r)) := rfl

lemma dv_int16 (f : Nat) (t : GoType) (cur : GoVal) (rest : ByteStr) :
    decodeValue (f + 1) t cur (99 :: rest) =
      (match readK 2 rest with
       | none => (some .ioErr, cur, [])
       | some (p, r) =>
         ((decodeNumber t cur (.i (beToInt 2 p)) "int16").1, (decodeNumber t cur (.i (beToInt 2 p)) "int16").2, r)) := rfl

lemma dv_int32 (f : Nat) (t : GoType) (cur : GoVal) (rest : ByteStr) :
    decodeValue (f + 1) t cur (125 :: rest) =
      (match readK 4 rest with
       | none => (some .ioErr, cur, [])
       | some (p, r) =>
         ((decodeNumber t cur (.i (beToInt 4 p)) "int32").1, (decodeNumber t cur (.i (beToInt 4 p)) "int32").2, r)) := rfl

lemma dv_int64 (f : Nat) (t : GoType) (cur : GoVal) (rest : ByteStr) :
    decodeValue (f + 1) t cur (151 :: rest) =
      (match readK 8 rest with
       | none => (some .ioErr, cur, [])
       | some (p, r) =>
         ((decodeNumber t cur (.i (beToInt 8 p)) "int64").1, (decodeNumber t cur (.i (beToInt 8 p)) "int64").2, r)) := rfl

lemma dv_uint8 (f : Nat) (t : GoType) (cur : GoVal) (rest : ByteStr) :
    decodeValue (f + 1) t cur (85 :: rest) =
      (match readK 1 rest with
       | none => (some .ioErr, cur, [])
       | some (p, r) =>
         ((decodeNumber t cur (.u (beToNat p)) "uint8").1, (decodeNumber t cur (.u (beToNat p)) "uint8").2, r)) := rfl

lemma dv_uint16 (f : Nat) (t : GoType) (cur : GoVal) (rest : ByteStr) :
    decodeValue (f + 1) t cur (111 :: rest) =
      (match readK 2 rest with
       | none => (some .ioErr, cur, [])
       | some (p, r) =>
         ((decodeNumber t cur (.u (beToNat p)) "uint16").1, (decodeNumber t cur (.u (beToNat p)) "uint16").2, r)) := rfl

lemma dv_uint32 (f : Nat) (t : GoType) (cur : GoVal) (rest : ByteStr) :
    decodeValue (f + 1) t cur (137 :: rest) =
      (match readK 4 rest with
       | none => (some .ioErr, cur, [])
       | some (p, r) =>
         ((decodeNumber t cur (.u (beToNat p)) "uint32").1, (decodeNumber t cur (.u (beToNat p)) "uint32").2, r)) := rfl

lemma dv_uint64 (f : Nat) (t : GoType) (cur : GoVal) (rest : ByteStr) :
    decodeValue (f + 1) t cur (163 :: rest) =
      (match readK 8 rest with
       | none => (some .ioErr, cur, [])
       | some (p, r) =>
         ((decodeNumber t cur (.u (beToNat p)) "uint64").1, (decodeNumber t cur (.u (beToNat p)) "uint64").2, r)) := rfl

lemma dv_float32 (f : Nat) (t : GoType) (cur : GoVal) (rest : ByteStr) :
    decodeValue (f + 1) t cur (120 :: rest) =
      (match readK 4 rest with
       | none => (some .ioErr, cur, [])
       | some (p, r) =>
         ((decodeNumber t cur (.f (f32ToF64bits (beToNat p))) "float32").1, (decodeNumber t cur (.f (f32ToF64bits (beToNat p))) "float32").2, r)) := rfl

lemma dv_float64 (f : Nat) (t : GoType) (cur : GoVal) (rest : ByteStr) :
    decodeValue (f + 1) t cur (146 :: rest) =
      (match readK 8 rest with
       | none => (some .ioErr, cur, [])
       | some (p, r) =>
         ((decodeNumber t cur (.f (beToNat p)) "float64").1, (decodeNumber t cur (.f (beToNat p)) "float64").2, r)) := rfl

lemma dv_string8 (f : Nat) (t : GoType) (cur : GoVal) (rest : ByteStr) :
    decodeValue (f + 1) t cur (83 :: rest) =
      (match readK 1 rest with
       | none => (some .ioErr, cur, [])
       | some (p, r) => decodeString t cur (beToNat p) r) := rfl

lemma dv_string16 (f : Nat) (t : GoType) (cur : GoVal) (rest : ByteStr) :
    decodeValue (f + 1) t cur (109 :: rest) =
      (match readK 2 rest with
       | none => (some .ioErr, cur, [])
       | some (p, r) => decodeString t cur (beToNat p) r) := rfl

lemma dv_string32 (f : Nat) (t : GoType) (cur : GoVal) (rest : ByteStr) :
    decodeValue (f + 1) t cur (135 :: rest) =
      (match readK 4 rest with
       | none => (some .ioErr, cur, [])
       | some (p, r) => decodeString t cur (beToNat p) r) := rfl

lemma dv_binary8 (f : Nat) (t : GoType) (cur : GoVal) (rest : ByteStr) :
    decodeValue (f + 1) t cur (66 :: rest) =
      (match readK 1 rest with
       | none => (some .ioErr, cur, [])
       | some (p, r) => decodeBinary t cur (beToNat p) r) := rfl

lemma dv_binary16 (f : Nat) (t : GoType) (cur : GoVal) (rest : ByteStr) :
    decodeValue (f + 1) t cur (92 :: rest) =
      (match readK 2 rest with
       | none => (some .ioErr, cur, [])
       | some (p, r) => decodeBinary t cur (beToNat p) r) := rfl

lemma dv_binary32 (f : Nat) (t : GoType) (cur : GoVal) (rest : ByteStr) :
    decodeValue (f + 1) t cur (118 :: rest) =
      (match readK 4 rest with
       | none => (some .ioErr, cur, [])
       | some (p, r) => decodeBinary t cur (beToNat p) r) := rfl

lemma dv_array8 (f : Nat) (t : GoType) (cur : GoVal) (rest : ByteStr) :
    decodeValue (f + 1) t cur (65 :: rest) =
      (match readK 1 rest with
       | none => (some .ioErr, cur, [])
       | some (p, r) => decodeArray (decodeValue f) t cur (beToNat p) r) := rfl

lemma dv_array16 (f : Nat) (t : GoType) (cur : GoVal) (rest : ByteStr) :
    decodeValue (f + 1) t cur (91 :: rest) =
      (match readK 2 rest with
       | none => (some .ioErr, cur, [])
       | some (p, r) => decodeArray (decodeValue f) t cur (beToNat p) r) := rfl

lemma dv_array32 (f : Nat) (t : GoType) (cur : GoVal) (rest : ByteStr) :
    decodeValue (f + 1) t cur (117 :: rest) =
      (match readK 4 rest with
       | none => (some .ioErr, cur, [])
       | some (p, r) => decodeArray (decodeValue f) t cur (beToNat p) r) := rfl

lemma dv_object8 (f : Nat) (t : GoType) (cur : GoVal) (rest : ByteStr) :
    decodeValue (f + 1) t cur (79 :: rest) =
      (match readK 1 rest with
       | none => (some .ioErr, cur, [])
       | some (p, r) => decodeObject (decodeValue f) t cur (beToNat p) r) := rfl

lemma dv_object16 (f : Nat) (t : GoType) (cur : GoVal) (rest : ByteStr) :
    decodeValue (f + 1) t cur (105 :: rest) =
      (match readK 2 rest with
       | none => (some .ioErr, cur, [])
       | some (p, r) => decodeObject (decodeValue f) t cur (beToNat p) r) := rfl

lemma dv_object32 (f : Nat) (t : GoType) (cur : GoVal) (rest : ByteStr) :
    decodeValue (f + 1) t cur (131 :: rest) =
      (match readK 4 rest with
       | none => (some .ioErr, cur, [])
       | some (p, r) => decodeObject (decodeValue f) t cur (beToNat p) r) := rfl

/-! Skipped fields hold the zero value: under `WF` and `Good`, the
emptiness predicate `skipValue` identifies exactly the zero value of the
field's type (negative zero floats being excluded by `Good`). -/

mutual
theorem skipZero (t : GoType) (v : GoVal) (hwf : WF t v = true) (hg : Good v = true)
    (hsk : skipValue v = true) : v = zeroVal t := by
  cases v with
  | vbool b =>
    cases t <;> simp only [WF] at hwf <;> try exact absurd hwf Bool.false_ne_true
    simp only [skipValue, Bool.not_eq_true'] at hsk
    simp [zeroVal, hsk]
  | vint w1 n =>
    cases t <;> simp only [WF] at hwf <;> try exact absurd hwf Bool.false_ne_true
    simp only [Bool.and_eq_true, beq_iff_eq] at hwf
    simp only [skipValue, beq_iff_eq] at hsk
    simp [zeroVal, hsk, hwf.1]
  | vuint w1 n =>
    cases t <;> simp only [WF] at hwf <;> try exact absurd hwf Bool.false_ne_true
    simp only [Bool.and_eq_true, beq_iff_eq] at hwf
    simp only [skipValue, beq_iff_eq] at hsk
    simp [zeroVal, hsk, hwf.1]
  | vf32 b =>
    cases t <;> simp only [WF] at hwf <;> try exact absurd hwf Bool.false_ne_true
    simp only [decide_eq_true_eq] at hwf
    simp only [skipValue, beq_iff_eq] at hsk
    simp only [Good, Bool.and_eq_true, Bool.not_eq_true', beq_eq_false_iff_ne] at hg
    have hb : b = 0 := by
      have h2 := hg.2
      omega
    simp [zeroVal, hb]
  | vf64 b =>
    cases t <;> simp only [WF] at hwf <;> try exact absurd hwf Bool.false_ne_true
    simp only [decide_eq_true_eq] at hwf
    simp only [skipValue, beq_iff_eq] at hsk
    simp only [Good, Bool.and_eq_true, Bool.not_eq_true', beq_eq_false_iff_ne] at hg
    have hb : b = 0 := by
      have h2 := hg.1.2
      omega
    simp [zeroVal, hb]
  | vstring s =>
    cases t <;> simp only [WF] at hwf <;> try exact absurd hwf Bool.false_ne_true
    simp only [skipValue, List.isEmpty_iff] at hsk
    simp [zeroVal, hsk]
  | vbytes s =>
    cases t <;> simp only [WF] at hwf <;> try exact absurd hwf Bool.false_ne_true
    simp only [skipValue, List.isEmpty_iff] at hsk
    simp [zeroVal, hsk]
  | varray es =>
    cases t <;> simp only [WF] at hwf <;> try exact absurd hwf Bool.false_ne_true
    case tarray len et =>
    simp only [Bool.and_eq_true, beq_iff_eq] at hwf
    obtain ⟨⟨hlen, _⟩, hl⟩ := hwf
    simp only [skipValue] at hsk
    simp only [Good] at hg
    simp only [zeroVal]
    rw [← hlen]
    exact congrArg GoVal.varray (skipZeroList et es hl hg hsk)
  | vslice es =>
    cases t <;> simp only [WF] at hwf <;> try exact absurd hwf Bool.false_ne_true
    simp only [skipValue, List.isEmpty_iff] at hsk
    simp [zeroVal, hsk]
  | vmap ps =>
    cases t <;> simp only [WF] at hwf <;> try exact absurd hwf Bool.false_ne_true
    simp only [skipValue, List.isEmpty_iff] at hsk
    simp [zeroVal, hsk]
  | vstruct fs =>
    cases t <;> simp only [WF] at hwf <;> try exact absurd hwf Bool.false_ne_true
    case tstruct fts =>
    simp only [Bool.and_eq_true] at hwf
    simp only [skipValue] at hsk
    simp only [Good] at hg
    simp only [zeroVal]
    exact congrArg GoVal.vstruct (skipZeroFields fts fs hwf.2 hg hsk)
termination_by structural v

theorem skipZeroList (et : GoType) (es : List GoVal) (hwf : WFList et es = true)
    (hg : GoodList es = true) (hsk : skipAll es = true) :
    es = List.replicate es.length (zeroVal et) := by
  cases es with
  | nil => rfl
  | cons e tl =>
    simp only [WFList, Bool.and_eq_true] at hwf
    simp only [GoodList, Bool.and_eq_true] at hg
    simp only [skipAll, Bool.and_eq_true] at hsk
    simp only [List.length_cons, List.replicate_succ]
    have h1 := skipZero et e hwf.1 hg.1 hsk.1
    have h2 := skipZeroList et tl hwf.2 hg.2 hsk.2
    congr 1
termination_by structural es

theorem skipZeroFields (fts : List (ByteStr × GoType)) (fs : List (ByteStr × GoVal))
    (hwf : WFFields fts fs = true) (hg : GoodFields fs = true)
    (hsk : skipAllFields fs = true) : fs = zeroFields fts := by
  cases fts with
  | nil =>
    cases fs with
    | nil => rfl
    | cons p tl =>
      simp only [WFFields] at hwf
      exact absurd hwf Bool.false_ne_true
  | cons ft fts1 =>
    cases fs with
    | nil =>
      simp only [WFFields] at hwf
      exact absurd hwf Bool.false_ne_true
    | cons fv fs1 =>
      obtain ⟨n1, t1⟩ := ft
      obtain ⟨n2, v1⟩ := fv
      simp only [WFFields, Bool.and_eq_true, beq_iff_eq] at hwf
      simp only [GoodFields, Bool.and_eq_true] at hg
      simp only [skipAllFields, Bool.and_eq_true] at hsk
      simp only [zeroFields]
      have h1 := skipZero t1 v1 hwf.1.2 hg.1 hsk.1
      have h2 := skipZeroFields fts1 fs1 hwf.2 hg.2 hsk.2
      have hn := hwf.1.1
      congr 1
      · exact Prod.ext hn.symm h1

termination_by structural fs
end

/-! Inversion and nonemptiness of the encoder's output. -/

lemma encodeList_cons_ok (e : GoVal) (tl : List GoVal) (bs : ByteStr)
    (h : encodeList (e :: tl) = .ok bs) :
    ∃ b1 b2, encodeVal e = .ok b1 ∧ encodeList tl = .ok b2 ∧ bs = b1 ++ b2 := by
  rw [encodeList] at h
  cases h1 : encodeVal e with
  | error err => rw [h1] at h; exact absurd h (by simp)
  | ok b1 =>
    rw [h1] at h
    cases h2 : encodeList tl with
    | error err => rw [h2] at h; exact absurd h (by simp)
    | ok b2 =>
      rw [h2] at h
      simp only [Except.ok.injEq] at h
      exact ⟨b1, b2, rfl, rfl, h.symm⟩

lemma encodePairs_cons_ok (k v : GoVal) (tl : List (GoVal × GoVal)) (bs : ByteStr)
    (h : encodePairs ((k, v) :: tl) = .ok bs) :
    ∃ b1 b2 b3, encodeVal k = .ok b1 ∧ encodeVal v = .ok b2 ∧ encodePairs tl = .ok b3 ∧
      bs = b1 ++ b2 ++ b3 := by
  rw [encodePairs] at h
  cases h1 : encodeVal k with
  | error err => rw [h1] at h; exact absurd h (by simp)
  | ok b1 =>
    rw [h1] at h
    cases h2 : encodeVal v with
    | error err => rw [h2] at h; exact absurd h (by simp)
    | ok b2 =>
      rw [h2] at h
      cases h3 : encodePairs tl with
      | error err => rw [h3] at h; exact absurd h (by simp)
      | ok b3 =>
        rw [h3] at h
        simp only [Except.ok.injEq] at h
        exact ⟨b1, b2, b3, rfl, rfl, rfl, h.symm⟩

lemma encodeFields_cons_skip (n : ByteStr) (v : GoVal) (tl : List (ByteStr × GoVal))
    (hsk : skipValue v = true) : encodeFields ((n, v) :: tl) = encodeFields tl := by
  rw [encodeFields, if_pos hsk]

lemma encodeFields_cons_ok (n : ByteStr) (v : GoVal) (tl : List (ByteStr × GoVal))
    (bs : ByteStr) (hsk : skipValue v = false) (h : encodeFields ((n, v) :: tl) = .ok bs) :
    ∃ b1 b2, encodeVal v = .ok b1 ∧ encodeFields tl = .ok b2 ∧
      bs = encodeString n ++ b1 ++ b2 := by
  rw [encodeFields, if_neg (by simp [hsk])] at h
  cases h1 : encodeVal v with
  | error err => rw [h1] at h; exact absurd h (by simp)
  | ok b1 =>
    rw [h1] at h
    cases h2 : encodeFields tl with
    | error err => rw [h2] at h; exact absurd h (by simp)
    | ok b2 =>
      rw [h2] at h
      simp only [Except.ok.injEq] at h
      exact ⟨b1, b2, rfl, rfl, h.symm⟩

lemma encodeVal_ne_nil (v : GoVal) (bs : ByteStr) (h : encodeVal v = .ok bs) : bs ≠ [] := by
  cases v with
  | vbool b => simp only [encodeVal, Except.ok.injEq] at h; subst h; simp
  | vint w n =>
    simp only [encodeVal, Except.ok.injEq] at h
    subst h
    unfold encodeInt
    split_ifs <;> simp
  | vuint w n =>
    simp only [encodeVal, Except.ok.injEq] at h
    subst h
    unfold encodeUint
    split_ifs <;> simp
  | vf32 b =>
    simp only [encodeVal] at h
    unfold encodeFloat at h
    split_ifs at h
    · simp only [Except.ok.injEq] at h; subst h; simp
    · simp only [Except.ok.injEq] at h; subst h; simp
  | vf64 b =>
    simp only [encodeVal] at h
    unfold encodeFloat at h
    split_ifs at h
    · simp only [Except.ok.injEq] at h; subst h; simp
    · simp only [Except.ok.injEq] at h; subst h; simp
  | vstring s =>
    simp only [encodeVal, Except.ok.injEq] at h
    subst h
    unfold encodeString
    split_ifs <;> simp
  | vbytes s =>
    simp only [encodeVal, Except.ok.injEq] at h
    subst h
    unfold encodeBinary
    split_ifs <;> simp
  | varray es =>
    rw [encodeVal] at h
    cases h1 : encodeList es with
    | error err => rw [h1] at h; exact absurd h (by simp)
    | ok b1 =>
      rw [h1] at h
      simp only [Except.ok.injEq] at h
      subst h
      unfold writeArrayType
      split_ifs <;> simp
  | vslice es =>
    rw [encodeVal] at h
    cases h1 : encodeList es with
    | error err => rw [h1] at h; exact absurd h (by simp)
    | ok b1 =>
      rw [h1] at h
      simp only [Except.ok.injEq] at h
      subst h
      unfold writeArrayType
      split_ifs <;> simp
  | vmap ps =>
    rw [encodeVal] at h
    cases h1 : encodePairs ps with
    | error err => rw [h1] at h; exact absurd h (by simp)
    | ok b1 =>
      rw [h1] at h
      simp only [Except.ok.injEq] at h
      subst h
      unfold writeObjectType
      split_ifs <;> simp
  | vstruct fs =>
    rw [encodeVal] at h
    cases h1 : encodeFields fs with
    | error err => rw [h1] at h; exact absurd h (by simp)
    | ok b1 =>
      rw [h1] at h
      simp only [Except.ok.injEq] at h
      subst h
      unfold writeObjectType
      split_ifs <;> simp

lemma encodeList_cons_ne_nil (e : GoVal) (tl : List GoVal) (bs : ByteStr)
    (h : encodeList (e :: tl) = .ok bs) : bs ≠ [] := by
  obtain ⟨b1, b2, h1, _, h3⟩ := encodeList_cons_ok e tl bs h
  have := encodeVal_ne_nil e b1 h1
  subst h3
  simp [this]

/-! Round trip of a text record into a text destination. -/

lemma overflow_intFits (w : W) (n : Int) (h : intFits w n = true) :
    overflowInt w n = false := by
  simp only [intFits, Bool.and_eq_true, decide_eq_true_eq] at h
  simp [overflowInt, h.1, h.2]

lemma overflow_uintFits (w : W) (n : Nat) (h : uintFits w n = true) :
    overflowUint w n = false := by
  simp only [uintFits, decide_eq_true_eq] at h
  simp [overflowUint]
  omega

lemma rtString (s : ByteStr) (hlen : s.length < 2 ^ 32) (f : Nat) (cur : GoVal)
    (r : ByteStr) (hnz : ¬(s = [] ∧ r = [])) :
    decodeValue (f + 1) .tstring cur (encodeString s ++ r) = (none, .vstring s, r) := by
  have hne : s ++ r ≠ [] := by
    intro hc
    rcases List.append_eq_nil.mp hc with ⟨h1, h2⟩
    exact hnz ⟨h1, h2⟩
  unfold encodeString
  split_ifs with h1 h2
  · rw [List.append_assoc, tString8_val, List.cons_append, dv_string8,
        readK_exact _ _ _ (be_length 1 s.length)]
    simp only [beToNat_be _ _ (by omega : s.length < 2 ^ (8 * 1)), decodeString]
    rw [next_exact s r hne]
  · rw [List.append_assoc, tString16_val, List.cons_append, dv_string16,
        readK_exact _ _ _ (be_length 2 s.length)]
    simp only [beToNat_be _ _ (by omega : s.length < 2 ^ (8 * 2)), decodeString]
    rw [next_exact s r hne]
  · rw [List.append_assoc, tString32_val, List.cons_append, dv_string32,
        readK_exact _ _ _ (be_length 4 s.length)]
    simp only [beToNat_be _ _ (by omega : s.length < 2 ^ (8 * 4)), decodeString]
    rw [next_exact s r hne]

/-! Round trip of the sequence-element loop. -/

lemma decodeArrayItems_cons_ok (dec : DecFn) (et : GoType) (v : GoVal) (vs : List GoVal)
    (input : ByteStr) (v1 : GoVal) (r : ByteStr) (h : dec et v input = (none, v1, r)) :
    decodeArrayItems dec et (v :: vs) input =
      ((decodeArrayItems dec et vs r).1, v1 :: (decodeArrayItems dec et vs r).2.1,
       (decodeArrayItems dec et vs r).2.2) := by
  rw [decodeArrayItems, h]

lemma rtItems (dec : DecFn) (et : GoType) :
    ∀ (es : List GoVal) (bs rest : ByteStr),
    (∀ e ∈ es, ∀ b r, encodeVal e = .ok b → (r = [] → noTrailEmpty e = true) →
       dec et (zeroVal et) (b ++ r) = (none, e, r)) →
    encodeList es = .ok bs → (rest = [] → noTrailList es = true) →
    decodeArrayItems dec et (List.replicate es.length (zeroVal et)) (bs ++ rest) =
      (none, es, rest) := by
  intro es
  induction es with
  | nil =>
    intro bs rest hdec henc htr
    simp only [encodeList, Except.ok.injEq] at henc
    subst henc
    simp [decodeArrayItems]
  | cons e tl ih =>
    intro bs rest hdec henc htr
    obtain ⟨b1, b2, h1, h2, h3⟩ := encodeList_cons_ok e tl bs henc
    subst h3
    rw [List.length_cons, List.replicate_succ, List.append_assoc]
    have he : dec et (zeroVal et) (b1 ++ (b2 ++ rest)) = (none, e, b2 ++ rest) := by
      apply hdec e (by simp) b1 (b2 ++ rest) h1
      intro hz
      rcases List.append_eq_nil.mp hz with ⟨hb2, hrest⟩
      cases tl with
      | nil => simpa [noTrailList] using htr hrest
      | cons x xs => exact absurd hb2 (encodeList_cons_ne_nil x xs b2 h2)
    rw [decodeArrayItems_cons_ok dec et _ _ _ _ _ he]
    have htl : decodeArrayItems dec et (List.replicate tl.length (zeroVal et)) (b2 ++ rest) =
        (none, tl, rest) := by
      apply ih _ _ (fun x hx => hdec x (by simp [hx])) h2
      intro hr
      have h4 := htr hr
      cases tl with
      | nil => simp [noTrailList]
      | cons x xs =>
        rw [show noTrailList (e :: x :: xs) = noTrailList (x :: xs) from rfl] at h4
        exact h4
    rw [htl]

/-! Round trip of the mapping-pair loop. -/

lemma encodePairs_cons_ne_nil (k v : GoVal) (tl : List (GoVal × GoVal)) (bs : ByteStr)
    (h : encodePairs ((k, v) :: tl) = .ok bs) : bs ≠ [] := by
  obtain ⟨b1, b2, b3, h1, _, _, h4⟩ := encodePairs_cons_ok k v tl bs h
  have := encodeVal_ne_nil k b1 h1
  subst h4
  simp [this]

lemma mapInsert_notmem (acc : List (GoVal × GoVal)) (k v : GoVal)
    (h : acc.all (fun q => !(q.1.beq k)) = true) : mapInsert acc k v = acc ++ [(k, v)] := by
  unfold mapInsert
  rw [if_neg]
  simp only [List.all_eq_true, Bool.not_eq_true'] at h
  simp only [List.any_eq_true, not_exists]
  rintro p ⟨hmem, hbeq⟩
  rw [h p hmem] at hbeq
  exact Bool.false_ne_true hbeq

lemma decodeMapItems_step (dec : DecFn) (kt vt : GoType) (acc : List (GoVal × GoVal))
    (n : Nat) (input : ByteStr) (k : GoVal) (r1 : ByteStr) (v : GoVal) (r2 : ByteStr)
    (hk : dec kt (zeroVal kt) input = (none, k, r1))
    (hv : dec vt (zeroVal vt) r1 = (none, v, r2)) :
    decodeMapItems dec kt vt acc (n + 1) input =
      decodeMapItems dec kt vt (mapInsert acc k v) n r2 := by
  simp only [decodeMapItems, hk, hv]

lemma rtPairs (dec : DecFn) (kt vt : GoType) :
    ∀ (ps acc : List (GoVal × GoVal)) (bs rest : ByteStr),
    (∀ p ∈ ps, ∀ b r, r ≠ [] → encodeVal p.1 = .ok b →
        dec kt (zeroVal kt) (b ++ r) = (none, p.1, r)) →
    (∀ p ∈ ps, ∀ b r, encodeVal p.2 = .ok b → (r = [] → noTrailEmpty p.2 = true) →
        dec vt (zeroVal vt) (b ++ r) = (none, p.2, r)) →
    (∀ p ∈ ps, acc.all (fun q => !(q.1.beq p.1)) = true) →
    mapKeysDistinct ps = true →
    encodePairs ps = .ok bs → (rest = [] → noTrailPairs ps = true) →
    decodeMapItems dec kt vt acc ps.length (bs ++ rest) = (none, acc ++ ps, rest) := by
  intro ps
  induction ps with
  | nil =>
    intro acc bs rest _ _ _ _ henc htr
    simp only [encodePairs, Except.ok.injEq] at henc
    subst henc
    simp [decodeMapItems]
  | cons p tl ih =>
    obtain ⟨k, v⟩ := p
    intro acc bs rest hk hv hdisj hnd henc htr
    obtain ⟨b1, b2, b3, h1, h2, h3, h4⟩ := encodePairs_cons_ok k v tl bs henc
    subst h4
    simp only [mapKeysDistinct, Bool.and_eq_true] at hnd
    rw [List.length_cons, List.append_assoc, List.append_assoc]
    have hkd : dec kt (zeroVal kt) (b1 ++ (b2 ++ (b3 ++ rest))) =
        (none, k, b2 ++ (b3 ++ rest)) := by
      apply hk (k, v) (by simp) b1 _ _ h1
      have := encodeVal_ne_nil v b2 h2
      simp [this]
    have hvd : dec vt (zeroVal vt) (b2 ++ (b3 ++ rest)) = (none, v, b3 ++ rest) := by
      apply hv (k, v) (by simp) b2 _ h2
      intro hz
      rcases List.append_eq_nil.mp hz with ⟨hb3, hrest⟩
      cases tl with
      | nil => simpa [noTrailPairs] using htr hrest
      | cons q tq =>
        obtain ⟨k2, v2⟩ := q
        exact absurd hb3 (encodePairs_cons_ne_nil k2 v2 tq b3 h3)
    rw [decodeMapItems_step dec kt vt acc tl.length _ k _ v _ hkd hvd]
    rw [mapInsert_notmem acc k v (hdisj (k, v) (by simp))]
    have htl : decodeMapItems dec kt vt (acc ++ [(k, v)]) tl.length (b3 ++ rest) =
        (none, (acc ++ [(k, v)]) ++ tl, rest) := by
      apply ih (acc ++ [(k, v)]) b3 rest
          (fun q hq => hk q (by simp [hq])) (fun q hq => hv q (by simp [hq]))
          ?_ hnd.2 h3
      · intro hr
        have h5 := htr hr
        cases tl with
        | nil => simp [noTrailPairs]
        | cons q tq =>
          rw [show noTrailPairs ((k, v) :: q :: tq) = noTrailPairs (q :: tq) from rfl] at h5
          exact h5
      · intro q hq
        simp only [List.all_append, Bool.and_eq_true]
        refine ⟨hdisj q (by simp [hq]), ?_⟩
        simp only [List.all_eq_true, Bool.not_eq_true'] at hnd ⊢
        intro a ha
        simp only [List.mem_singleton] at ha
        subst ha
        exact hnd.1 q hq
    rw [htl, List.append_assoc]
    simp

/-! Association-list lemmas for struct fields. -/

lemma setField_cons_eq (n : ByteStr) (x : GoVal) (fs : List (ByteStr × GoVal))
    (v : GoVal) : setField ((n, x) :: fs) n v = (n, v) :: setField fs n v := by
  simp [setField]

lemma setField_cons_ne (n1 n : ByteStr) (x : GoVal) (fs : List (ByteStr × GoVal))
    (v : GoVal) (h : n1 ≠ n) : setField ((n1, x) :: fs) n v = (n1, x) :: setField fs n v := by
  simp [setField, h]

lemma setField_notmem (fs : List (ByteStr × GoVal)) (n : ByteStr) (v : GoVal)
    (h : ∀ p ∈ fs, p.1 ≠ n) : setField fs n v = fs := by
  induction fs with
  | nil => rfl
  | cons p tl ih =>
    obtain ⟨n1, x⟩ := p
    rw [setField_cons_ne n1 n x tl v (h (n1, x) (by simp))]
    rw [ih (fun q hq => h q (by simp [hq]))]

lemma setField_names (fs : List (ByteStr × GoVal)) (n : ByteStr) (v : GoVal) :
    (setField fs n v).map Prod.fst = fs.map Prod.fst := by
  induction fs with
  | nil => rfl
  | cons p tl ih =>
    obtain ⟨n1, x⟩ := p
    by_cases h : n1 = n
    · subst h
      rw [setField_cons_eq]
      simp [ih]
    · rw [setField_cons_ne n1 n x tl v h]
      simp [ih]

lemma lookupField_setField_ne (fs : List (ByteStr × GoVal)) (n k : ByteStr) (v : GoVal)
    (h : n ≠ k) : lookupField (setField fs k v) n = lookupField fs n := by
  induction fs with
  | nil => rfl
  | cons p tl ih =>
    obtain ⟨n1, x⟩ := p
    by_cases h1 : n1 = k
    · subst h1
      rw [setField_cons_eq]
      simp only [lookupField]
      rw [if_neg (fun hc => h hc.symm), if_neg (fun hc => h hc.symm)]
      exact ih
    · rw [setField_cons_ne n1 k x tl v h1]
      simp only [lookupField]
      split
      · rfl
      · exact ih

lemma updateFields_cons_notmem (x : ByteStr × GoVal) (xv : List (ByteStr × GoVal))
    (ps : List (ByteStr × GoVal)) (h : ∀ p ∈ ps, p.1 ≠ x.1) :
    updateFields (x :: xv) ps = x :: updateFields xv ps := by
  induction ps generalizing xv with
  | nil => rfl
  | cons p tl ih =>
    obtain ⟨n, v⟩ := p
    obtain ⟨n1, x1⟩ := x
    rw [updateFields, updateFields]
    rw [setField_cons_ne n1 n x1 xv v (fun hc => h (n, v) (by simp) (by simp [hc]))]
    exact ih _ (fun q hq => h q (by simp [hq]))

lemma zeroFields_names (fts : List (ByteStr × GoType)) :
    (zeroFields fts).map Prod.fst = fts.map Prod.fst := by
  induction fts with
  | nil => rfl
  | cons p tl ih =>
    obtain ⟨n, t⟩ := p
    simp [zeroFields, ih]

lemma lookupField_zeroFields (fts : List (ByteStr × GoType)) (n : ByteStr) :
    lookupField (zeroFields fts) n = (lookupField fts n).map zeroVal := by
  induction fts with
  | nil => rfl
  | cons p tl ih =>
    obtain ⟨n1, t⟩ := p
    simp only [zeroFields, lookupField]
    split
    · rfl
    · exact ih

lemma WFFields_names (fts : List (ByteStr × GoType)) (fs : List (ByteStr × GoVal))
    (h : WFFields fts fs = true) : fs.map Prod.fst = fts.map Prod.fst := by
  induction fts generalizing fs with
  | nil =>
    cases fs with
    | nil => rfl
    | cons p tl => simp only [WFFields] at h; exact absurd h Bool.false_ne_true
  | cons p tl ih =>
    obtain ⟨n1, t⟩ := p
    cases fs with
    | nil => simp only [WFFields] at h; exact absurd h Bool.false_ne_true
    | cons q tq =>
      obtain ⟨n2, v⟩ := q
      simp only [WFFields, Bool.and_eq_true, beq_iff_eq] at h
      simp [h.1.1, ih tq h.2]

lemma fieldNamesDistinct_of_names {α β : Type} (l1 : List (ByteStr × α))
    (l2 : List (ByteStr × β)) (h : l1.map Prod.fst = l2.map Prod.fst)
    (hd : fieldNamesDistinct l2 = true) : fieldNamesDistinct l1 = true := by
  induction l1 generalizing l2 with
  | nil => rfl
  | cons p tl ih =>
    obtain ⟨n, x⟩ := p
    cases l2 with
    | nil => simp at h
    | cons q tq =>
      obtain ⟨n2, y⟩ := q
      simp only [List.map_cons, List.cons.injEq] at h
      simp only [fieldNamesDistinct, Bool.and_eq_true] at hd ⊢
      refine ⟨?_, ih tq h.2 hd.2⟩
      simp only [List.all_eq_true, Bool.not_eq_true', beq_eq_false_iff_ne] at hd ⊢
      intro a ha
      have hmem : a.1 ∈ tl.map Prod.fst := List.mem_map_of_mem Prod.fst ha
      rw [h.2] at hmem
      obtain ⟨b, hb, hba⟩ := List.mem_map.mp hmem
      rw [← hba, h.1]
      exact hd.1 b hb

lemma fieldNamesDistinct_filter (fs : List (ByteStr × GoVal))
    (p : ByteStr × GoVal → Bool) (h : fieldNamesDistinct fs = true) :
    fieldNamesDistinct (fs.filter p) = true := by
  induction fs with
  | nil => rfl
  | cons q tl ih =>
    obtain ⟨n, v⟩ := q
    simp only [fieldNamesDistinct, Bool.and_eq_true] at h
    rw [List.filter_cons]
    split
    · simp only [fieldNamesDistinct, Bool.and_eq_true]
      refine ⟨?_, ih h.2⟩
      simp only [List.all_eq_true] at h ⊢
      intro a ha
      exact h.1 a (List.mem_of_mem_filter ha)
    · exact ih h.2

/-! Round trip of the record-field scan and the record-pair loop. -/

lemma scanNoMatch (dec : DecFn) :
    ∀ (fts : List (ByteStr × GoType)) (xv : List (ByteStr × GoVal)) (xk : ByteStr)
    (input : ByteStr), (∀ p ∈ fts, p.1 ≠ xk) →
    decodeFieldScan dec fts xv xk input = (none, xv, input, false) := by
  intro fts
  induction fts with
  | nil => intro xv xk input _; rfl
  | cons p tl ih =>
    obtain ⟨n1, t1⟩ := p
    intro xv xk input h
    cases xv with
    | nil => rfl
    | cons q xv1 =>
      obtain ⟨n2, v1⟩ := q
      rw [decodeFieldScan, if_neg (h (n1, t1) (by simp))]
      rw [ih xv1 xk input (fun a ha => h a (by simp [ha]))]

lemma rtFieldScan (dec : DecFn) :
    ∀ (fts : List (ByteStr × GoType)) (xv : List (ByteStr × GoVal)) (xk : ByteStr)
    (tp : GoType) (cv dv : GoVal) (b r : ByteStr),
    xv.map Prod.fst = fts.map Prod.fst →
    fieldNamesDistinct fts = true →
    lookupField fts xk = some tp →
    lookupField xv xk = some cv →
    dec tp cv (b ++ r) = (none, dv, r) →
    decodeFieldScan dec fts xv xk (b ++ r) = (none, setField xv xk dv, r, true) := by
  intro fts
  induction fts with
  | nil => intro xv xk tp cv dv b r _ _ hf; simp [lookupField] at hf
  | cons p tl ih =>
    obtain ⟨n1, t1⟩ := p
    intro xv xk tp cv dv b r hnames hdist hf hs hdec
    cases xv with
    | nil => simp at hnames
    | cons q xv1 =>
      obtain ⟨n2, v1⟩ := q
      simp only [List.map_cons, List.cons.injEq] at hnames
      simp only [fieldNamesDistinct, Bool.and_eq_true] at hdist
      by_cases hxk : n1 = xk
      · subst hxk
        simp only [lookupField, if_pos rfl] at hf
        rw [hnames.1] at hs
        simp only [lookupField, if_pos rfl] at hs
        have ht : t1 = tp := by injection hf
        have hv : v1 = cv := by injection hs
        subst ht
        subst hv
        have hnm : ∀ a ∈ tl, a.1 ≠ n1 := by
          intro a ha
          have := hdist.1
          simp only [List.all_eq_true, Bool.not_eq_true', beq_eq_false_iff_ne] at this
          exact this a ha
        rw [decodeFieldScan, if_pos rfl]
        simp only [hdec, scanNoMatch dec tl xv1 n1 r hnm]
        rw [hnames.1, setField_cons_eq]
        rw [setField_notmem xv1 n1 dv ?_]
        intro a ha
        have hmem : a.1 ∈ xv1.map Prod.fst := List.mem_map_of_mem Prod.fst ha
        rw [hnames.2] at hmem
        obtain ⟨c, hc, hca⟩ := List.mem_map.mp hmem
        rw [← hca]
        exact hnm c hc
      · have hn2 : n2 ≠ xk := by rw [hnames.1]; exact hxk
        simp only [lookupField, if_neg hxk] at hf
        simp only [lookupField, if_neg hn2] at hs
        rw [decodeFieldScan, if_neg hxk]
        rw [ih xv1 xk tp cv dv b r hnames.2 hdist.2 hf hs hdec]
        rw [setField_cons_ne n2 xk v1 xv1 dv hn2]

lemma encodeString_ne_nil (s : ByteStr) : encodeString s ≠ [] := by
  unfold encodeString
  split_ifs <;> simp

lemma rtStructPairs (dec : DecFn) (fts : List (ByteStr × GoType)) :
    ∀ (ps xv : List (ByteStr × GoVal)) (bs rest : ByteStr),
    (∀ (s : ByteStr) (r : ByteStr), r ≠ [] → s.length < 2 ^ 32 →
        dec .tstring (.vstring []) (encodeString s ++ r) = (none, .vstring s, r)) →
    xv.map Prod.fst = fts.map Prod.fst →
    fieldNamesDistinct fts = true →
    fieldNamesDistinct ps = true →
    (∀ p ∈ ps, p.1.length < 2 ^ 32 ∧ skipValue p.2 = false ∧ ∃ tp,
        lookupField fts p.1 = some tp ∧ lookupField xv p.1 = some (zeroVal tp) ∧
        (∀ b r, encodeVal p.2 = .ok b → (r = [] → noTrailEmpty p.2 = true) →
          dec tp (zeroVal tp) (b ++ r) = (none, p.2, r))) →
    encodeFields ps = .ok bs → (rest = [] → noTrailFields ps = true) →
    decodeStructPairs dec fts xv ps.length (bs ++ rest) = (none, updateFields xv ps, rest) := by
  intro ps
  induction ps with
  | nil =>
    intro xv bs rest _ _ _ _ _ henc htr
    simp only [encodeFields, Except.ok.injEq] at henc
    subst henc
    simp [decodeStructPairs, updateFields]
  | cons p tl ih =>
    obtain ⟨n, v⟩ := p
    intro xv bs rest hkey hnames hdist hpdist hmem henc htr
    obtain ⟨hnlen, hskip, tp, hf, hs, hdec⟩ := hmem (n, v) (by simp)
    obtain ⟨b1, b2, h1, h2, h3⟩ := encodeFields_cons_ok n v tl bs hskip henc
    subst h3
    simp only [fieldNamesDistinct, Bool.and_eq_true] at hpdist
    have hb2nil : b2 = [] → tl = [] := by
      intro hz
      cases tl with
      | nil => rfl
      | cons q tq =>
        obtain ⟨n2, v2⟩ := q
        have hsk2 : skipValue v2 = false := (hmem (n2, v2) (by simp)).2.1
        obtain ⟨c1, c2, _, _, hc3⟩ := encodeFields_cons_ok n2 v2 tq b2 hsk2 h2
        rw [hz] at hc3
        exact absurd hc3.symm (by simp [encodeString_ne_nil])
    rw [List.length_cons, List.append_assoc, List.append_assoc]
    rw [decodeStructPairs]
    have hkd : dec .tstring (.vstring []) (encodeString n ++ (b1 ++ (b2 ++ rest))) =
        (none, .vstring n, b1 ++ (b2 ++ rest)) := by
      apply hkey n _ _ hnlen
      have := encodeVal_ne_nil v b1 h1
      simp [this]
    have hvd : dec tp (zeroVal tp) (b1 ++ (b2 ++ rest)) = (none, v, b2 ++ rest) := by
      apply hdec b1 _ h1
      intro hz
      rcases List.append_eq_nil.mp hz with ⟨hb2, hrest⟩
      have htl : tl = [] := hb2nil hb2
      subst htl
      have h5 := htr hrest
      simp only [noTrailFields, skipAllFields, if_pos rfl, hskip] at h5
      exact h5
    have hrt := rtFieldScan dec fts xv n tp (zeroVal tp) v b1 (b2 ++ rest) hnames hdist hf hs hvd
    have htl : decodeStructPairs dec fts (setField xv n v) tl.length (b2 ++ rest) =
        (none, updateFields (setField xv n v) tl, rest) := by
      apply ih (setField xv n v) b2 rest hkey ?_ hdist ?_ ?_ h2 ?_
      · rw [setField_names]; exact hnames
      · exact hpdist.2
      · intro q hq
        obtain ⟨hq1, hq2, tq, hq3, hq4, hq5⟩ := hmem q (by simp [hq])
        refine ⟨hq1, hq2, tq, hq3, ?_, hq5⟩
        rw [lookupField_setField_ne xv q.1 n v ?_]
        · exact hq4
        · simp only [List.all_eq_true, Bool.not_eq_true', beq_eq_false_iff_ne] at hpdist
          exact hpdist.1 q hq
      · intro hr
        have h5 := htr hr
        cases tl with
        | nil => rfl
        | cons q tq =>
          obtain ⟨n2, v2⟩ := q
          have hsk2 : skipValue v2 = false := (hmem (n2, v2) (by simp)).2.1
          have hnotall : skipAllFields ((n2, v2) :: tq) = false := by
            simp [skipAllFields, hsk2]
          rw [noTrailFields, hnotall] at h5
          simpa using h5
    simp only [hkd, hrt, reduceIte]
    rw [htl]
    rfl

/-! Membership transfer through the well-formedness, goodness and rank
predicates, and size bookkeeping for the round-trip induction. -/

lemma WFList_mem (et : GoType) (es : List GoVal) (h : WFList et es = true) :
    ∀ e ∈ es, WF et e = true := by
  induction es with
  | nil => intro e he; cases he
  | cons x tl ih =>
    simp only [WFList, Bool.and_eq_true] at h
    intro e he
    rcases List.mem_cons.mp he with h1 | h1
    · subst h1; exact h.1
    · exact ih h.2 e h1

lemma GoodList_mem (es : List GoVal) (h : GoodList es = true) :
    ∀ e ∈ es, Good e = true := by
  induction es with
  | nil => intro e he; cases he
  | cons x tl ih =>
    simp only [GoodList, Bool.and_eq_true] at h
    intro e he
    rcases List.mem_cons.mp he with h1 | h1
    · subst h1; exact h.1
    · exact ih h.2 e h1

lemma rankList_mem (es : List GoVal) : ∀ e ∈ es, rank e ≤ rankList es := by
  induction es with
  | nil => intro e he; cases he
  | cons x tl ih =>
    intro e he
    rcases List.mem_cons.mp he with h1 | h1
    · subst h1; rw [rankList]; exact le_max_left _ _
    · rw [rankList]; exact le_trans (ih e h1) (le_max_right _ _)

lemma WFPairs_mem (kt vt : GoType) (ps : List (GoVal × GoVal))
    (h : WFPairs kt vt ps = true) :
    ∀ p ∈ ps, WF kt p.1 = true ∧ WF vt p.2 = true := by
  induction ps with
  | nil => intro p hp; cases hp
  | cons q tl ih =>
    obtain ⟨k, v⟩ := q
    simp only [WFPairs, Bool.and_eq_true] at h
    intro p hp
    rcases List.mem_cons.mp hp with h1 | h1
    · subst h1; exact ⟨h.1.1, h.1.2⟩
    · exact ih h.2 p h1

lemma GoodPairs_mem (ps : List (GoVal × GoVal)) (h : GoodPairs ps = true) :
    ∀ p ∈ ps, Good p.1 = true ∧ Good p.2 = true := by
  induction ps with
  | nil => intro p hp; cases hp
  | cons q tl ih =>
    obtain ⟨k, v⟩ := q
    simp only [GoodPairs, Bool.and_eq_true] at h
    intro p hp
    rcases List.mem_cons.mp hp with h1 | h1
    · subst h1; exact ⟨h.1.1, h.1.2⟩
    · exact ih h.2 p h1

lemma rankPairs_mem (ps : List (GoVal × GoVal)) :
    ∀ p ∈ ps, rank p.1 ≤ rankPairs ps ∧ rank p.2 ≤ rankPairs ps := by
  induction ps with
  | nil => intro p hp; cases hp
  | cons q tl ih =>
    obtain ⟨k, v⟩ := q
    intro p hp
    rcases List.mem_cons.mp hp with h1 | h1
    · subst h1
      rw [rankPairs]
      exact ⟨le_trans (le_max_left _ _) (le_max_left _ _),
             le_trans (le_max_right _ _) (le_max_left _ _)⟩
    · rw [rankPairs]
      exact ⟨le_trans (ih p h1).1 (le_max_right _ _),
             le_trans (ih p h1).2 (le_max_right _ _)⟩

lemma GoodFields_mem (fs : List (ByteStr × GoVal)) (h : GoodFields fs = true) :
    ∀ p ∈ fs, Good p.2 = true := by
  induction fs with
  | nil => intro p hp; cases hp
  | cons q tl ih =>
    obtain ⟨n, v⟩ := q
    simp only [GoodFields, Bool.and_eq_true] at h
    intro p hp
    rcases List.mem_cons.mp hp with h1 | h1
    · subst h1; exact h.1
    · exact ih h.2 p h1

lemma rankFields_mem (fs : List (ByteStr × GoVal)) :
    ∀ p ∈ fs, rank p.2 ≤ rankFields fs := by
  induction fs with
  | nil => intro p hp; cases hp
  | cons q tl ih =>
    obtain ⟨n, v⟩ := q
    intro p hp
    rcases List.mem_cons.mp hp with h1 | h1
    · subst h1; rw [rankFields]; exact le_max_left _ _
    · rw [rankFields]; exact le_trans (ih p h1) (le_max_right _ _)

lemma rank_pos (v : GoVal) : 1 ≤ rank v := by
  cases v <;> simp [rank]

lemma WFFields_lookup (fts : List (ByteStr × GoType)) :
    ∀ (fs : List (ByteStr × GoVal)), WFFields fts fs = true →
    fieldNamesDistinct fts = true →
    ∀ p ∈ fs, ∃ tp, lookupField fts p.1 = some tp ∧ WF tp p.2 = true := by
  induction fts with
  | nil =>
    intro fs h _ p hp
    cases fs with
    | nil => cases hp
    | cons q tq => simp only [WFFields] at h; exact absurd h Bool.false_ne_true
  | cons ft fts1 ih =>
    intro fs hwf hdist p hp
    obtain ⟨n, t⟩ := ft
    cases fs with
    | nil => cases hp
    | cons q fs1 =>
      obtain ⟨n2, v⟩ := q
      simp only [WFFields, Bool.and_eq_true, beq_iff_eq] at hwf
      obtain ⟨⟨hn, hwv⟩, hwf1⟩ := hwf
      subst hn
      simp only [fieldNamesDistinct, Bool.and_eq_true] at hdist
      rcases List.mem_cons.mp hp with h1 | h1
      · subst h1
        exact ⟨t, by simp [lookupField], hwv⟩
      · obtain ⟨tp, htp, hwtp⟩ := ih fs1 hwf1 hdist.2 p h1
        refine ⟨tp, ?_, hwtp⟩
        rw [lookupField, if_neg ?_]
        · exact htp
        · intro hc
          have hmem : p.1 ∈ fs1.map Prod.fst := List.mem_map_of_mem Prod.fst h1
          rw [WFFields_names fts1 fs1 hwf1] at hmem
          obtain ⟨c, hc1, hc2⟩ := List.mem_map.mp hmem
          have h3 := hdist.1
          simp only [List.all_eq_true, Bool.not_eq_true', beq_eq_false_iff_ne] at h3
          exact h3 c hc1 (hc2.trans hc.symm)

lemma sizeOf_mem_list (es : List GoVal) : ∀ v ∈ es, sizeOf v < sizeOf es := by
  induction es with
  | nil => intro v hv; cases hv
  | cons e tl ih =>
    intro v hv
    rcases List.mem_cons.mp hv with h | h
    · subst h; simp only [List.cons.sizeOf_spec]; omega
    · have := ih v h; simp only [List.cons.sizeOf_spec]; omega

lemma sizeOf_mem_pairs (ps : List (GoVal × GoVal)) :
    ∀ p ∈ ps, sizeOf p.1 < sizeOf ps ∧ sizeOf p.2 < sizeOf ps := by
  induction ps with
  | nil => intro p hp; cases hp
  | cons q tl ih =>
    intro p hp
    rcases List.mem_cons.mp hp with h | h
    · subst h
      obtain ⟨k, v⟩ := p
      simp only [List.cons.sizeOf_spec, Prod.mk.sizeOf_spec]
      omega
    · have := ih p h; simp only [List.cons.sizeOf_spec]; omega

lemma sizeOf_mem_fields (fs : List (ByteStr × GoVal)) :
    ∀ p ∈ fs, sizeOf p.2 < sizeOf fs := by
  induction fs with
  | nil => intro p hp; cases hp
  | cons q tl ih =>
    intro p hp
    rcases List.mem_cons.mp hp with h | h
    · subst h
      obtain ⟨n, v⟩ := p
      simp only [List.cons.sizeOf_spec, Prod.mk.sizeOf_spec]
      omega
    · have := ih p h; simp only [List.cons.sizeOf_spec]; omega

/-! The emitted struct fields are exactly the non-skipped ones. -/

lemma skipAllFields_filter (fs : List (ByteStr × GoVal)) :
    skipAllFields fs = (fs.filter (fun p => !skipValue p.2)).isEmpty := by
  induction fs with
  | nil => rfl
  | cons p tl ih =>
    obtain ⟨n, v⟩ := p
    rw [skipAllFields, List.filter_cons]
    cases hv : skipValue v with
    | true => simpa [hv] using ih
    | false => simp [hv]

lemma encodeFields_filter (fs : List (ByteStr × GoVal)) :
    encodeFields (fs.filter (fun p => !skipValue p.2)) = encodeFields fs := by
  induction fs with
  | nil => rfl
  | cons p tl ih =>
    obtain ⟨n, v⟩ := p
    rw [List.filter_cons]
    cases hv : skipValue v with
    | true =>
      rw [if_neg (by simp [hv]), encodeFields_cons_skip n v tl hv]
      exact ih
    | false =>
      rw [if_pos (by simp [hv])]
      rw [encodeFields, if_neg (by simp [hv]), encodeFields, if_neg (by simp [hv]), ih]

lemma noTrailFields_filter (fs : List (ByteStr × GoVal)) :
    noTrailFields (fs.filter (fun p => !skipValue p.2)) = noTrailFields fs := by
  induction fs with
  | nil => rfl
  | cons p tl ih =>
    obtain ⟨n, v⟩ := p
    rw [List.filter_cons]
    cases hv : skipValue v with
    | true =>
      rw [if_neg (by simp [hv])]
      rw [show noTrailFields ((n, v) :: tl) =
            (if skipAllFields tl then (if skipValue v then true else noTrailEmpty v)
             else noTrailFields tl) from rfl]
      rw [hv, if_pos rfl]
      cases h2 : skipAllFields tl with
      | true =>
        rw [if_pos rfl]
        rw [skipAllFields_filter] at h2
        rw [List.isEmpty_iff.mp h2]
        rfl
      | false =>
        rw [if_neg (by simp)]
        exact ih
    | false =>
      rw [if_pos (by simp [hv])]
      rw [show noTrailFields ((n, v) :: (tl.filter (fun p => !skipValue p.2))) =
            (if skipAllFields (tl.filter (fun p => !skipValue p.2)) then
               (if skipValue v then true else noTrailEmpty v)
             else noTrailFields (tl.filter (fun p => !skipValue p.2))) from rfl]
      rw [show noTrailFields ((n, v) :: tl) =
            (if skipAllFields tl then (if skipValue v then true else noTrailEmpty v)
             else noTrailFields tl) from rfl]
      have hself : skipAllFields (tl.filter (fun p => !skipValue p.2)) =
          (tl.filter (fun p => !skipValue p.2)).isEmpty := by
        cases hq : tl.filter (fun p => !skipValue p.2) with
        | nil => rfl
        | cons q tq =>
          have hqmem : q ∈ tl.filter (fun p => !skipValue p.2) := by rw [hq]; simp
          have hqs : skipValue q.2 = false := by
            have := (List.mem_filter.mp hqmem).2
            simpa using this
          obtain ⟨qn, qv⟩ := q
          rw [skipAllFields]
          simp only at hqs
          rw [hqs]
          rfl
      rw [hself, ← skipAllFields_filter]
      cases h2 : skipAllFields tl with
      | true =>
        rw [if_pos rfl, if_pos rfl]
      | false =>
        rw [if_neg (by simp), if_neg (by simp)]
        exact ih

/-- The decoded struct: updating a zero record with the emitted (non-skip)
pairs restores the original field list; the skipped fields are exactly the
zero-valued ones. -/
lemma updateZero (fts : List (ByteStr × GoType)) :
    ∀ (fs : List (ByteStr × GoVal)), WFFields fts fs = true → GoodFields fs = true →
    fieldNamesDistinct fts = true →
    updateFields (zeroFields fts) (fs.filter (fun p => !skipValue p.2)) = fs := by
  induction fts with
  | nil =>
    intro fs hwf _ _
    cases fs with
    | nil => rfl
    | cons p tl => simp only [WFFields] at hwf; exact absurd hwf Bool.false_ne_true
  | cons ft fts1 ih =>
    intro fs hwf hg hdist
    obtain ⟨n, t⟩ := ft
    cases fs with
    | nil => simp only [WFFields] at hwf; exact absurd hwf Bool.false_ne_true
    | cons fv fs1 =>
      obtain ⟨n2, v⟩ := fv
      simp only [WFFields, Bool.and_eq_true, beq_iff_eq] at hwf
      simp only [GoodFields, Bool.and_eq_true] at hg
      simp only [fieldNamesDistinct, Bool.and_eq_true] at hdist
      obtain ⟨⟨hn, hwv⟩, hwf1⟩ := hwf
      subst hn
      have hnotn : ∀ q ∈ fs1.filter (fun p => !skipValue p.2), q.1 ≠ n := by
        intro q hq
        have hq1 : q ∈ fs1 := List.mem_of_mem_filter hq
        have hmem : q.1 ∈ fs1.map Prod.fst := List.mem_map_of_mem Prod.fst hq1
        rw [WFFields_names fts1 fs1 hwf1] at hmem
        obtain ⟨c, hc, hcq⟩ := List.mem_map.mp hmem
        rw [← hcq]
        have h3 := hdist.1
        simp only [List.all_eq_true, Bool.not_eq_true', beq_eq_false_iff_ne] at h3
        exact h3 c hc
      rw [zeroFields, List.filter_cons]
      cases hv : skipValue v with
      | true =>
        rw [if_neg (by simp [hv])]
        rw [updateFields_cons_notmem _ _ _ hnotn]
        rw [ih fs1 hwf1 hg.2 hdist.2]
        rw [skipZero t v hwv hg.1 hv]
      | false =>
        rw [if_pos (by simp [hv])]
        rw [updateFields, setField_cons_eq]
        rw [setField_notmem (zeroFields fts1) n v ?hz]
        case hz =>
          intro q hq
          have hmem : q.1 ∈ (zeroFields fts1).map Prod.fst := List.mem_map_of_mem Prod.fst hq
          rw [zeroFields_names] at hmem
          obtain ⟨c, hc, hcq⟩ := List.mem_map.mp hmem
          rw [← hcq]
          have h3 := hdist.1
          simp only [List.all_eq_true, Bool.not_eq_true', beq_eq_false_iff_ne] at h3
          exact h3 c hc
        rw [updateFields_cons_notmem _ _ _ hnotn]
        rw [ih fs1 hwf1 hg.2 hdist.2]

/-! Remaining float facts for the round trip: the widening of a finite
`float32` is finite, nonzero ones stay at or above the smallest 32-bit
subnormal, the narrowing always fits four bytes, and the overflow check
passes on widened values. -/

lemma dle_of_gt (x y : Nat) (e f : Int) (hef : f < e) (h : x * 2 ^ (e - f).toNat ≤ y) :
    dle (x, e) (y, f) = true := by
  simp [dle, not_le.mpr hef, h]

lemma dlt_false_of_dle (a b : Nat × Int) (h : dle a b = true) : dlt b a = false := by
  simp [dlt, h]

lemma roundHalfEven_le (M k : Nat) : roundHalfEven M k ≤ M / 2 ^ k + 1 := by
  simp only [roundHalfEven]
  split_ifs with h1 h2 h3 h4
  · subst h1
    simp
  all_goals omega

lemma f64ToF32bits_lt (b : Nat) : f64ToF32bits b < 2 ^ 32 := by
  have hs : f64SignB b < 2 := by unfold f64SignB; omega
  have hm : f64Mant b < 2 ^ 52 := Nat.mod_lt _ (by positivity)
  unfold f64ToF32bits
  split_ifs with h1 h2 h3 h4 h5 h6 h7
  · omega
  · omega
  · omega
  · have hr := roundHalfEven_le (2 ^ 52 + f64Mant b) (926 - f64Exp b)
    have hE : f64Exp b < 897 := by omega
    have hE0 : 0 < f64Exp b := Nat.pos_of_ne_zero h3
    have hd1 : (2 ^ 52 + f64Mant b) / 2 ^ (926 - f64Exp b) ≤
        (2 ^ 52 + f64Mant b) / 2 ^ 30 :=
      Nat.div_le_div_left (Nat.pow_le_pow_right (by norm_num) (by omega)) (by positivity)
    have hd2 : (2 ^ 52 + f64Mant b) / 2 ^ 30 < 2 ^ 23 := by
      rw [Nat.div_lt_iff_lt_mul (by positivity)]
      omega
    omega
  · omega
  · omega
  · omega
  · have hr := roundHalfEven_le (2 ^ 52 + f64Mant b) 29
    have hd2 : (2 ^ 52 + f64Mant b) / 2 ^ 29 * 2 ^ 29 ≤ 2 ^ 52 + f64Mant b :=
      Nat.div_mul_le_self _ _
    omega

lemma f32_widen_finite_comp (s e m : Nat) (hs : s < 2) (he : e < 255) (hm : m < 2 ^ 23) :
    f64Exp (f32ToF64bits (s * 2 ^ 31 + e * 2 ^ 23 + m)) ≠ 2047 := by
  rw [f32ToF64bits_eq s e m hs he hm]
  by_cases he0 : e = 0
  · subst he0
    by_cases hm0 : m = 0
    · subst hm0
      rw [if_pos rfl, if_pos rfl]
      have hz := f64fields s 0 0 hs (by norm_num) (by positivity)
      simp only [Nat.zero_mul, Nat.add_zero] at hz
      rw [hz.2.1]
      omega
    · rw [if_pos rfl, if_neg hm0]
      obtain ⟨hj1, hj2, hj3, hj4, hj5⟩ := f32_sub_bounds m (by omega) hm
      set j := log2f 32 m with hjdef
      have hM : m * 2 ^ (52 - j) - 2 ^ 52 < 2 ^ 52 := by omega
      obtain ⟨g1, g2, g3⟩ := f64fields s (j + 874) (m * 2 ^ (52 - j) - 2 ^ 52) hs (by omega) hM
      rw [g2]
      omega
  · rw [if_neg he0]
    have hM : m * 2 ^ 29 < 2 ^ 52 := by omega
    obtain ⟨g1, g2, g3⟩ := f64fields s (e + 896) (m * 2 ^ 29) hs (by omega) hM
    rw [g2]
    omega

lemma f32_widen_finite (b : Nat) (hb : b < 2 ^ 32) (hf : f32Exp b ≠ 255) :
    f64Exp (f32ToF64bits b) ≠ 2047 := by
  obtain ⟨hdec, hs, he, hm⟩ := f32decomp b hb
  rw [hdec]
  refine f32_widen_finite_comp _ _ _ hs (by omega) hm

lemma f32_widen_ge_min_comp (s e m : Nat) (hs : s < 2) (he : e < 255) (hm : m < 2 ^ 23)
    (hnz : ¬(e = 0 ∧ m = 0)) :
    dle smallestNonzeroFloat32D (absD64 (f32ToF64bits (s * 2 ^ 31 + e * 2 ^ 23 + m))) = true := by
  rw [f32ToF64bits_eq s e m hs he hm]
  unfold smallestNonzeroFloat32D
  by_cases he0 : e = 0
  · subst he0
    have hm0 : m ≠ 0 := fun hc => hnz ⟨rfl, hc⟩
    rw [if_pos rfl, if_neg hm0]
    obtain ⟨hj1, hj2, hj3, hj4, hj5⟩ := f32_sub_bounds m (by omega) hm
    set j := log2f 32 m with hjdef
    have hM : m * 2 ^ (52 - j) - 2 ^ 52 < 2 ^ 52 := by omega
    obtain ⟨g1, g2, g3⟩ := f64fields s (j + 874) (m * 2 ^ (52 - j) - 2 ^ 52) hs (by omega) hM
    unfold absD64
    rw [g2, g3, if_neg (by omega)]
    have hfix : 2 ^ 52 + (m * 2 ^ (52 - j) - 2 ^ 52) = m * 2 ^ (52 - j) := by omega
    rw [hfix]
    apply dle_of_gt
    · omega
    · have htn : ((-149 : Int) - (((j + 874 : Nat) : Int) - 1075)).toNat = 52 - j := by omega
      rw [htn, one_mul]
      exact Nat.le_mul_of_pos_left _ (by omega)
  · rw [if_neg he0]
    have hM : m * 2 ^ 29 < 2 ^ 52 := by omega
    obtain ⟨g1, g2, g3⟩ := f64fields s (e + 896) (m * 2 ^ 29) hs (by omega) hM
    unfold absD64
    rw [g2, g3, if_neg (by omega)]
    by_cases he30 : 30 ≤ e
    · apply dle_of_le
      · omega
      · calc (1 : Nat) ≤ 2 ^ 52 + m * 2 ^ 29 := by omega
        _ ≤ (2 ^ 52 + m * 2 ^ 29) * 2 ^ ((((e + 896 : Nat) : Int) - 1075) - -149).toNat :=
            Nat.le_mul_of_pos_right _ (by positivity)
    · apply dle_of_gt
      · omega
      · have htn : ((-149 : Int) - (((e + 896 : Nat) : Int) - 1075)).toNat = 30 - e := by omega
        rw [htn, one_mul]
        calc 2 ^ (30 - e) ≤ 2 ^ 52 := Nat.pow_le_pow_right (by norm_num) (by omega)
        _ ≤ 2 ^ 52 + m * 2 ^ 29 := Nat.le_add_right _ _

lemma f32_widen_ge_min (b : Nat) (hb : b < 2 ^ 32) (hf : f32Exp b ≠ 255)
    (h0 : b ≠ 0) (h1 : b ≠ 2 ^ 31) :
    dle smallestNonzeroFloat32D (absD64 (f32ToF64bits b)) = true := by
  obtain ⟨hdec, hs, he, hm⟩ := f32decomp b hb
  rw [hdec]
  refine f32_widen_ge_min_comp _ _ _ hs (by omega) hm ?_
  rintro ⟨he0, hm0⟩
  rw [he0, hm0] at hdec
  interval_cases h : f32SignB b
  · omega
  · omega

lemma overflow_f32_widen (b : Nat) (hb : b < 2 ^ 32) (hf : f32Exp b ≠ 255) :
    overflowFloat32 (f32ToF64bits b) = false := by
  unfold overflowFloat32
  rw [if_neg (f32_widen_finite b hb hf)]
  exact dlt_false_of_dle _ _ (f32_widen_le_max b hb hf)

/-! Round trip of a bytes record into a byte-slice destination. -/

lemma rtBinary (s : ByteStr) (hlen : s.length < 2 ^ 32) (f : Nat) (cur : GoVal)
    (r : ByteStr) (hnz : ¬(s = [] ∧ r = [])) :
    decodeValue (f + 1) .tbytes cur (encodeBinary s ++ r) = (none, .vbytes s, r) := by
  have hne : s ++ r ≠ [] := by
    intro hc
    rcases List.append_eq_nil.mp hc with ⟨h1, h2⟩
    exact hnz ⟨h1, h2⟩
  unfold encodeBinary
  split_ifs with h1 h2
  · rw [List.append_assoc, tBinary8_val, List.cons_append, dv_binary8,
        readK_exact _ _ _ (be_length 1 s.length)]
    simp only [beToNat_be _ _ (by omega : s.length < 2 ^ (8 * 1)), decodeBinary]
    rw [next_exact s r hne]
  · rw [List.append_assoc, tBinary16_val, List.cons_append, dv_binary16,
        readK_exact _ _ _ (be_length 2 s.length)]
    simp only [beToNat_be _ _ (by omega : s.length < 2 ^ (8 * 2)), decodeBinary]
    rw [next_exact s r hne]
  · rw [List.append_assoc, tBinary32_val, List.cons_append, dv_binary32,
        readK_exact _ _ _ (be_length 4 s.length)]
    simp only [beToNat_be _ _ (by omega : s.length < 2 ^ (8 * 4)), decodeBinary]
    rw [next_exact s r hne]

/-- `beInt` always emits `k` bytes. -/
lemma beInt_length (k : Nat) (i : Int) : (beInt k i).length = k := be_length _ _

/-! Tier dispatch for sequence and mapping headers, and small range
facts. -/

lemma dv_arrayTier (f : Nat) (t : GoType) (cur : GoVal) (n : Nat) (hn : n < 2 ^ 32)
    (b rest : ByteStr) :
    decodeValue (f + 1) t cur ((writeArrayType n ++ b) ++ rest) =
      decodeArray (decodeValue f) t cur n (b ++ rest) := by
  unfold writeArrayType
  split_ifs with c1 c2
  · simp only [tArray8_val, List.cons_append, List.append_assoc]
    rw [dv_array8]
    simp only [readK_exact _ _ _ (be_length 1 n), beToNat_be 1 n (by omega)]
  · simp only [tArray16_val, List.cons_append, List.append_assoc]
    rw [dv_array16]
    simp only [readK_exact _ _ _ (be_length 2 n), beToNat_be 2 n (by omega)]
  · simp only [tArray32_val, List.cons_append, List.append_assoc]
    rw [dv_array32]
    simp only [readK_exact _ _ _ (be_length 4 n), beToNat_be 4 n (by omega)]

lemma dv_objectTier (f : Nat) (t : GoType) (cur : GoVal) (n : Nat) (hn : n < 2 ^ 32)
    (b rest : ByteStr) :
    decodeValue (f + 1) t cur ((writeObjectType n ++ b) ++ rest) =
      decodeObject (decodeValue f) t cur n (b ++ rest) := by
  unfold writeObjectType
  split_ifs with c1 c2
  · simp only [tObject8_val, List.cons_append, List.append_assoc]
    rw [dv_object8]
    simp only [readK_exact _ _ _ (be_length 1 n), beToNat_be 1 n (by omega)]
  · simp only [tObject16_val, List.cons_append, List.append_assoc]
    rw [dv_object16]
    simp only [readK_exact _ _ _ (be_length 2 n), beToNat_be 2 n (by omega)]
  · simp only [tObject32_val, List.cons_append, List.append_assoc]
    rw [dv_object32]
    simp only [readK_exact _ _ _ (be_length 4 n), beToNat_be 4 n (by omega)]

lemma intFits_range (w : W) (n : Int) (h : intFits w n = true) :
    -(2 ^ 63) ≤ n ∧ n < 2 ^ 63 := by
  simp only [intFits, Bool.and_eq_true, decide_eq_true_eq] at h
  cases w <;> simp only [W.bits] at h <;> omega

lemma uintFits_range (w : W) (n : Nat) (h : uintFits w n = true) : n < 2 ^ 64 := by
  simp only [uintFits, decide_eq_true_eq] at h
  cases w <;> simp only [W.bits] at h <;> omega

lemma sliceResize_nil (n : Nat) (z : GoVal) : sliceResize [] n z = List.replicate n z := by
  unfold sliceResize
  split_ifs with h
  · simp
  · simp only [List.length_nil] at h
    have hn : n = 0 := by omega
    subst hn
    rfl

lemma GoVal.one_le_sizeOf (v : GoVal) : 1 ≤ sizeOf v := by
  cases v <;> simp_arith

/-! The round trip: a well-formed value with `Good` float content decodes
from its own encoding into the zero value of its type, consuming exactly
the encoding (provided the record stream does not end in an empty
text/bytes payload, which the `bytes.Reader` end-of-stream read would
refuse). -/

theorem rtVal (N : Nat) : ∀ (v : GoVal) (t : GoType) (f : Nat) (bs rest : ByteStr),
    sizeOf v ≤ N → WF t v = true → Good v = true → rank v ≤ f →
    (rest = [] → noTrailEmpty v = true) → encodeVal v = .ok bs →
    decodeValue f t (zeroVal t) (bs ++ rest) = (none, v, rest) := by
  induction N with
  | zero =>
    intro v t f bs rest hsz
    have := GoVal.one_le_sizeOf v
    omega
  | succ N ih =>
    intro v t f bs rest hsz hwf hg hrk htr henc
    obtain ⟨f1, rfl⟩ : ∃ f1, f = f1 + 1 := ⟨f - 1, by have := rank_pos v; omega⟩
    cases v with
    | vbool b =>
      cases t <;> simp only [WF] at hwf <;> try exact absurd hwf Bool.false_ne_true
      simp only [encodeVal, Except.ok.injEq] at henc
      subst henc
      cases b
      · rw [show (([if false then tTrue else tFalse] : ByteStr) ++ rest) = 70 :: rest from rfl]
        rw [dv_false]
        rfl
      · rw [show (([if true then tTrue else tFalse] : ByteStr) ++ rest) = 84 :: rest from rfl]
        rw [dv_true]
        rfl
    | vint w n =>
      cases t <;> simp only [WF] at hwf <;> try exact absurd hwf Bool.false_ne_true
      case tint w0 =>
      simp only [Bool.and_eq_true, beq_iff_eq] at hwf
      obtain ⟨hww, hfits⟩ := hwf
      subst hww
      simp only [encodeVal, Except.ok.injEq] at henc
      subst henc
      obtain ⟨hr1, hr2⟩ := intFits_range w0 n hfits
      unfold encodeInt
      split_ifs with c1 c2 c3
      · simp only [tInt8_val, List.cons_append]
        rw [dv_int8]
        simp only [readK_exact _ _ _ (beInt_length 1 n),
          beInt_toInt 1 (by norm_num) n (by omega) (by omega), decodeNumber]
        rw [overflow_intFits w0 n hfits]
        simp
      · simp only [tInt16_val, List.cons_append]
        rw [dv_int16]
        simp only [readK_exact _ _ _ (beInt_length 2 n),
          beInt_toInt 2 (by norm_num) n (by omega) (by omega), decodeNumber]
        rw [overflow_intFits w0 n hfits]
        simp
      · simp only [tInt32_val, List.cons_append]
        rw [dv_int32]
        simp only [readK_exact _ _ _ (beInt_length 4 n),
          beInt_toInt 4 (by norm_num) n (by omega) (by omega), decodeNumber]
        rw [overflow_intFits w0 n hfits]
        simp
      · simp only [tInt64_val, List.cons_append]
        rw [dv_int64]
        simp only [readK_exact _ _ _ (beInt_length 8 n),
          beInt_toInt 8 (by norm_num) n (by omega) (by omega), decodeNumber]
        rw [overflow_intFits w0 n hfits]
        simp
    | vuint w n =>
      cases t <;> simp only [WF] at hwf <;> try exact absurd hwf Bool.false_ne_true
      case tuint w0 =>
      simp only [Bool.and_eq_true, beq_iff_eq] at hwf
      obtain ⟨hww, hfits⟩ := hwf
      subst hww
      simp only [encodeVal, Except.ok.injEq] at henc
      subst henc
      have hr := uintFits_range w0 n hfits
      unfold encodeUint
      split_ifs with c1 c2 c3
      · simp only [tUint8_val, List.cons_append]
        rw [dv_uint8]
        simp only [readK_exact _ _ _ (be_length 1 n), beToNat_be 1 n (by omega), decodeNumber]
        rw [overflow_uintFits w0 n hfits]
        simp
      · simp only [tUint16_val, List.cons_append]
        rw [dv_uint16]
        simp only [readK_exact _ _ _ (be_length 2 n), beToNat_be 2 n (by omega), decodeNumber]
        rw [overflow_uintFits w0 n hfits]
        simp
      · simp only [tUint32_val, List.cons_append]
        rw [dv_uint32]
        simp only [readK_exact _ _ _ (be_length 4 n), beToNat_be 4 n (by omega), decodeNumber]
        rw [overflow_uintFits w0 n hfits]
        simp
      · simp only [tUint64_val, List.cons_append]
        rw [dv_uint64]
        simp only [readK_exact _ _ _ (be_length 8 n), beToNat_be 8 n (by omega), decodeNumber]
        rw [overflow_uintFits w0 n hfits]
        simp
    | vf32 b =>
      cases t <;> simp only [WF] at hwf <;> try exact absurd hwf Bool.false_ne_true
      simp only [decide_eq_true_eq] at hwf
      simp only [Good, Bool.and_eq_true] at hg
      have hfin : f32Exp b ≠ 255 := by
        have h1 := hg.1
        simp only [f32Finite, Bool.not_eq_true', beq_eq_false_iff_ne] at h1
        exact h1
      have hneg : b ≠ 2 ^ 31 := by
        have h1 := hg.2
        simp only [Bool.not_eq_true', beq_eq_false_iff_ne] at h1
        exact h1
      simp only [encodeVal] at henc
      rw [encodeFloat] at henc
      rw [if_neg (by simp [isNaNOrInf64, f32_widen_finite b hwf hfin])] at henc
      cases hC : (dle smallestNonzeroFloat32D (absD64 (f32ToF64bits b)) &&
          dle (absD64 (f32ToF64bits b)) maxFloat32D) with
      | true =>
        rw [if_pos hC] at henc
        simp only [Except.ok.injEq] at henc
        subst henc
        rw [f32_widen_narrow b hwf hfin]
        simp only [tFloat32_val, List.cons_append]
        rw [dv_float32]
        simp only [readK_exact _ _ _ (be_length 4 b), beToNat_be 4 b (by omega), decodeNumber]
        rw [overflow_f32_widen b hwf hfin]
        simp [f32_widen_narrow b hwf hfin]
      | false =>
        have hb0 : b = 0 := by
          by_contra hb0
          rw [f32_widen_ge_min b hwf hfin hb0 hneg, f32_widen_le_max b hwf hfin] at hC
          simp at hC
        subst hb0
        rw [if_neg (by simp [hC])] at henc
        simp only [Except.ok.injEq] at henc
        subst henc
        simp only [tFloat64_val, List.cons_append]
        rw [dv_float64]
        simp only [readK_exact _ _ _ (be_length 8 _),
          beToNat_be 8 _ (by decide : f32ToF64bits 0 < 2 ^ (8 * 8)), decodeNumber]
        rw [show overflowFloat32 (f32ToF64bits 0) = false from by decide]
        simp [show f64ToF32bits (f32ToF64bits 0) = 0 from by decide]
    | vf64 b =>
      cases t <;> simp only [WF] at hwf <;> try exact absurd hwf Bool.false_ne_true
      simp only [decide_eq_true_eq] at hwf
      simp only [Good, Bool.and_eq_true] at hg
      have hfin : f64Exp b ≠ 2047 := by
        have h1 := hg.1.1
        simp only [f64Finite, Bool.not_eq_true', beq_eq_false_iff_ne] at h1
        exact h1
      simp only [encodeVal] at henc
      rw [encodeFloat] at henc
      rw [if_neg (by simp [isNaNOrInf64, hfin])] at henc
      cases hC : (dle smallestNonzeroFloat32D (absD64 b) && dle (absD64 b) maxFloat32D) with
      | true =>
        rw [if_pos hC] at henc
        simp only [Except.ok.injEq] at henc
        subst henc
        have hex : f32ToF64bits (f64ToF32bits b) = b := by
          have h1 := hg.2
          unfold f64Exact32 at h1
          rw [if_pos hC] at h1
          exact beq_iff_eq.mp h1
        simp only [tFloat32_val, List.cons_append]
        rw [dv_float32]
        simp only [readK_exact _ _ _ (be_length 4 _),
          beToNat_be 4 (f64ToF32bits b) (by have := f64ToF32bits_lt b; omega), hex, decodeNumber]
      | false =>
        rw [if_neg (by simp [hC])] at henc
        simp only [Except.ok.injEq] at henc
        subst henc
        simp only [tFloat64_val, List.cons_append]
        rw [dv_float64]
        simp only [readK_exact _ _ _ (be_length 8 _), beToNat_be 8 b (by omega), decodeNumber]
    | vstring s =>
      cases t <;> simp only [WF] at hwf <;> try exact absurd hwf Bool.false_ne_true
      simp only [Bool.and_eq_true, decide_eq_true_eq] at hwf
      simp only [encodeVal, Except.ok.injEq] at henc
      subst henc
      apply rtString s hwf.2 f1 _ rest
      rintro ⟨hs0, hr0⟩
      have h1 := htr hr0
      subst hs0
      simp only [noTrailEmpty, List.isEmpty_nil, Bool.not_true] at h1
      exact Bool.false_ne_true h1
    | vbytes s =>
      cases t <;> simp only [WF] at hwf <;> try exact absurd hwf Bool.false_ne_true
      simp only [Bool.and_eq_true, decide_eq_true_eq] at hwf
      simp only [encodeVal, Except.ok.injEq] at henc
      subst henc
      apply rtBinary s hwf.2 f1 _ rest
      rintro ⟨hs0, hr0⟩
      have h1 := htr hr0
      subst hs0
      simp only [noTrailEmpty, List.isEmpty_nil, Bool.not_true] at h1
      exact Bool.false_ne_true h1
    | varray es =>
      cases t <;> simp only [WF] at hwf <;> try exact absurd hwf Bool.false_ne_true
      case tarray len et =>
      simp only [Bool.and_eq_true, beq_iff_eq, decide_eq_true_eq] at hwf
      obtain ⟨⟨hlen, hl32⟩, hwl⟩ := hwf
      simp only [Good] at hg
      simp only [rank] at hrk
      simp only [GoVal.varray.sizeOf_spec] at hsz
      simp only [encodeVal] at henc
      cases hb : encodeList es with
      | error e => rw [hb] at henc; exact absurd henc (by simp)
      | ok b1 =>
        rw [hb] at henc
        simp only [Except.ok.injEq] at henc
        subst henc
        rw [show zeroVal (.tarray len et) = .varray (List.replicate len (zeroVal et)) from rfl]
        rw [dv_arrayTier f1 _ _ es.length (by omega) b1 rest]
        simp only [decodeArray]
        rw [if_neg (by omega)]
        rw [List.take_replicate, show min es.length len = es.length from by omega]
        have hitems : decodeArrayItems (decodeValue f1) et
            (List.replicate es.length (zeroVal et)) (b1 ++ rest) = (none, es, rest) := by
          apply rtItems (decodeValue f1) et es b1 rest ?_ hb htr
          intro e he b r hb2 htr2
          apply ih e et f1 b r ?_ (WFList_mem et es hwl e he) (GoodList_mem es hg e he)
              ?_ htr2 hb2
          · have := sizeOf_mem_list es e he
            omega
          · have := rankList_mem es e he
            omega
        simp only [hitems]
        rw [show len - es.length = 0 from by omega]
        simp
    | vslice es =>
      cases t <;> simp only [WF] at hwf <;> try exact absurd hwf Bool.false_ne_true
      case tslice et =>
      simp only [Bool.and_eq_true, decide_eq_true_eq] at hwf
      obtain ⟨hl32, hwl⟩ := hwf
      simp only [Good] at hg
      simp only [rank] at hrk
      simp only [GoVal.vslice.sizeOf_spec] at hsz
      simp only [encodeVal] at henc
      cases hb : encodeList es with
      | error e => rw [hb] at henc; exact absurd henc (by simp)
      | ok b1 =>
        rw [hb] at henc
        simp only [Except.ok.injEq] at henc
        subst henc
        rw [show zeroVal (.tslice et) = .vslice [] from rfl]
        rw [dv_arrayTier f1 _ _ es.length (by omega) b1 rest]
        simp only [decodeArray, sliceResize_nil]
        have hitems : decodeArrayItems (decodeValue f1) et
            (List.replicate es.length (zeroVal et)) (b1 ++ rest) = (none, es, rest) := by
          apply rtItems (decodeValue f1) et es b1 rest ?_ hb htr
          intro e he b r hb2 htr2
          apply ih e et f1 b r ?_ (WFList_mem et es hwl e he) (GoodList_mem es hg e he)
              ?_ htr2 hb2
          · have := sizeOf_mem_list es e he
            omega
          · have := rankList_mem es e he
            omega
        simp only [hitems]
    | vmap ps =>
      cases t <;> simp only [WF] at hwf <;> try exact absurd hwf Bool.false_ne_true
      case tmap kt vt =>
      simp only [Bool.and_eq_true, decide_eq_true_eq] at hwf
      obtain ⟨⟨hl32, hkd⟩, hwp⟩ := hwf
      simp only [Good] at hg
      simp only [rank] at hrk
      simp only [GoVal.vmap.sizeOf_spec] at hsz
      simp only [encodeVal] at henc
      cases hb : encodePairs ps with
      | error e => rw [hb] at henc; exact absurd henc (by simp)
      | ok b1 =>
        rw [hb] at henc
        simp only [Except.ok.injEq] at henc
        subst henc
        rw [show zeroVal (.tmap kt vt) = .vmap [] from rfl]
        rw [dv_objectTier f1 _ _ ps.length (by omega) b1 rest]
        simp only [decodeObject]
        have hitems : decodeMapItems (decodeValue f1) kt vt [] ps.length (b1 ++ rest) =
            (none, [] ++ ps, rest) := by
          apply rtPairs (decodeValue f1) kt vt ps [] b1 rest ?_ ?_ (by simp) hkd hb htr
          · intro p hp b r hrne hb2
            apply ih p.1 kt f1 b r ?_ (WFPairs_mem kt vt ps hwp p hp).1
                (GoodPairs_mem ps hg p hp).1 ?_ (fun hc => absurd hc hrne) hb2
            · have := (sizeOf_mem_pairs ps p hp).1
              omega
            · have := (rankPairs_mem ps p hp).1
              omega
          · intro p hp b r hb2 htr2
            apply ih p.2 vt f1 b r ?_ (WFPairs_mem kt vt ps hwp p hp).2
                (GoodPairs_mem ps hg p hp).2 ?_ htr2 hb2
            · have := (sizeOf_mem_pairs ps p hp).2
              omega
            · have := (rankPairs_mem ps p hp).2
              omega
        simp only [hitems]
        simp
    | vstruct fs =>
      cases t <;> simp only [WF] at hwf <;> try exact absurd hwf Bool.false_ne_true
      case tstruct fts =>
      simp only [Bool.and_eq_true, decide_eq_true_eq] at hwf
      obtain ⟨⟨⟨hl32, hnlen⟩, hnd⟩, hwff⟩ := hwf
      simp only [Good] at hg
      simp only [rank] at hrk
      simp only [GoVal.vstruct.sizeOf_spec] at hsz
      simp only [encodeVal] at henc
      cases hb : encodeFields fs with
      | error e => rw [hb] at henc; exact absurd henc (by simp)
      | ok b1 =>
        rw [hb] at henc
        simp only [Except.ok.injEq] at henc
        subst henc
        have hfslen : fs.length = fts.length := by
          have := congrArg List.length (WFFields_names fts fs hwff)
          simpa using this
        have hplen : (fs.filter (fun p => !skipValue p.2)).length < 2 ^ 32 := by
          have := List.length_filter_le (fun p => !skipValue p.2) fs
          omega
        rw [show zeroVal (.tstruct fts) = .vstruct (zeroFields fts) from rfl]
        rw [dv_objectTier f1 _ _ _ hplen b1 rest]
        simp only [decodeObject]
        cases hps : fs.filter (fun p => !skipValue p.2) with
        | nil =>
          have hskipall : skipAllFields fs = true := by
            rw [skipAllFields_filter, hps]
            rfl
          have hfz : fs = zeroFields fts := skipZeroFields fts fs hwff hg hskipall
          have hb1 : b1 = [] := by
            have h1 := encodeFields_filter fs
            rw [hps, hb] at h1
            simp only [encodeFields] at h1
            injection h1 with h2
            exact h2.symm
          subst hb1
          simp only [List.length_nil, List.nil_append]
          simp only [show decodeStructPairs (decodeValue f1) fts (zeroFields fts) 0 rest =
              (none, zeroFields fts, rest) from rfl]
          rw [← hfz]
        | cons q ps1 =>
          have hq : q ∈ fs.filter (fun p => !skipValue p.2) := by rw [hps]; simp
          obtain ⟨f2, rfl⟩ : ∃ f2, f1 = f2 + 1 := by
            refine ⟨f1 - 1, ?_⟩
            have h1 := rankFields_mem fs q (List.mem_of_mem_filter hq)
            have h2 := rank_pos q.2
            omega
          rw [← hps]
          have hpairs : decodeStructPairs (decodeValue (f2 + 1)) fts (zeroFields fts)
              (fs.filter (fun p => !skipValue p.2)).length (b1 ++ rest) =
              (none, updateFields (zeroFields fts)
                (fs.filter (fun p => !skipValue p.2)), rest) := by
            apply rtStructPairs (decodeValue (f2 + 1)) fts _ (zeroFields fts) b1 rest
            · intro s r hrne hslen
              apply rtString s hslen f2 _ r
              rintro ⟨_, hr0⟩
              exact hrne hr0
            · exact zeroFields_names fts
            · exact hnd
            · apply fieldNamesDistinct_filter
              apply fieldNamesDistinct_of_names fs fts (WFFields_names fts fs hwff) hnd
            · intro p hp
              have hpfs : p ∈ fs := List.mem_of_mem_filter hp
              have hpskip : skipValue p.2 = false := by
                have := (List.mem_filter.mp hp).2
                simpa using this
              obtain ⟨tp, htp, hwtp⟩ := WFFields_lookup fts fs hwff hnd p hpfs
              refine ⟨?_, hpskip, tp, htp, ?_, ?_⟩
              · have hmem : p.1 ∈ fs.map Prod.fst := List.mem_map_of_mem Prod.fst hpfs
                rw [WFFields_names fts fs hwff] at hmem
                obtain ⟨c, hc, hcq⟩ := List.mem_map.mp hmem
                simp only [List.all_eq_true, decide_eq_true_eq] at hnlen
                rw [← hcq]
                exact hnlen c hc
              · rw [lookupField_zeroFields, htp]
                rfl
              · intro b r hb2 htr2
                apply ih p.2 tp (f2 + 1) b r ?_ hwtp (GoodFields_mem fs hg p hpfs) ?_ htr2 hb2
                · have := sizeOf_mem_fields fs p hpfs
                  omega
                · have := rankFields_mem fs p hpfs
                  omega
            · rw [encodeFields_filter]
              exact hb
            · intro hr
              rw [noTrailFields_filter]
              exact htr hr
          simp only [hpairs]
          rw [updateZero fts fs hwff hg hnd]

/-! The ten claims. -/

/-- C1 (counterexample): the unconditional round-trip claim fails: the
`float64` value `1 + 2 ^ -52` (bits `4607182418800017409`) lies in the
4-byte tier, is rounded to the `float32` pattern of `1.0` on encode,
and decodes back as `1.0` (bits `4607182418800017408`), a structurally
different value. -/
theorem C1_counterexample :
    encodeVal (.vf64 4607182418800017409) = .ok [120, 63, 128, 0, 0] ∧
    decodeValue 1 .tfloat64 (zeroVal .tfloat64) [120, 63, 128, 0, 0] =
      (none, .vf64 4607182418800017408, []) ∧
    (GoVal.vf64 4607182418800017408).beq (.vf64 4607182418800017409) = false :=
  ⟨rfl, rfl, rfl⟩

/-- C1 (amended): encoding a well-formed value of a covered kind and
decoding the produced bytes into a pointer destination of matching shape
reproduces the value exactly, provided the floats are finite, not negative
zero, and (for `float64` values in the 4-byte tier) exactly representable
in 32 bits (`Good`), and the encoding does not end in an empty text/bytes
record (`noTrailEmpty`), whose zero-length payload read would hit the
`bytes.Reader` end-of-stream `io.EOF`. -/
theorem C1_roundtrip (v : GoVal) (t : GoType) (bs : ByteStr) (f : Nat)
    (hwf : WF t v = true) (hg : Good v = true) (hf : rank v ≤ f)
    (hnt : noTrailEmpty v = true) (henc : encodeVal v = .ok bs) :
    decodeTop f (.pointer t (zeroVal t)) bs = (none, .pointer t v, []) := by
  have h := rtVal (sizeOf v) v t f bs [] (le_refl _) hwf hg hf (fun _ => hnt) henc
  rw [List.append_nil] at h
  simp only [decodeTop, h]

theorem C1_roundtrip_witness :
    WF (.tstruct [(ascii "A", .tint .w64), (ascii "B", .tstring)])
       (.vstruct [(ascii "A", .vint .w64 5), (ascii "B", .vstring (ascii "hi"))]) = true ∧
    decodeTop 2 (.pointer (.tstruct [(ascii "A", .tint .w64), (ascii "B", .tstring)])
        (zeroVal (.tstruct [(ascii "A", .tint .w64), (ascii "B", .tstring)])))
        [79, 2, 83, 1, 65, 73, 5, 83, 1, 66, 83, 2, 104, 105] =
      (none, .pointer (.tstruct [(ascii "A", .tint .w64), (ascii "B", .tstring)])
        (.vstruct [(ascii "A", .vint .w64 5), (ascii "B", .vstring (ascii "hi"))]), []) :=
  ⟨rfl, C1_roundtrip (.vstruct [(ascii "A", .vint .w64 5), (ascii "B", .vstring (ascii "hi"))])
      (.tstruct [(ascii "A", .tint .w64), (ascii "B", .tstring)])
      [79, 2, 83, 1, 65, 73, 5, 83, 1, 66, 83, 2, 104, 105] 2
      rfl rfl (by decide) rfl rfl⟩

/-- C2 (counterexample): the claim that a numeric destination is set only
when it can represent the wire value exactly fails: the 8-byte unsigned
wire value `2 ^ 64 - 1` (payload eight `0xFF` bytes) decodes into a signed
64-bit destination without error, storing the wrapped value `-1`, although
`2 ^ 64 - 1` is far outside the `int64` range. -/
theorem C2_counterexample :
    decodeValue 1 (.tint .w64) (.vint .w64 0) (163 :: List.replicate 8 255) =
      (none, .vint .w64 (-1), []) ∧
    beToNat (List.replicate 8 255) = 18446744073709551615 ∧
    intFits .w64 (18446744073709551615 : Int) = false :=
  ⟨rfl, rfl, rfl⟩

/-- C2 (amended): decoding an 8-byte unsigned wire value into a signed
destination first reinterprets it two's-complement (`int64(x)`), then only
the destination width decides between setting and a decode type error: the
destination is set to the wrapped value whenever that value fits the
width, even when the original wire value is unrepresentable; a too-large
value into a narrower destination still fails.  The wrap is
value-preserving modulo `2 ^ 64`. -/
theorem C2_numeric_coercion (w : W) (u : Nat) (cur : GoVal) (rest : ByteStr)
    (hu : u < 2 ^ 64) :
    (decodeValue 1 (.tint w) cur ((tUint64 :: be 8 u) ++ rest) =
      (if intFits w (toSigned64 u) then (none, .vint w (toSigned64 u), rest)
       else (some (.typeErr "uint64" (.tint w)), cur, rest))) ∧
    toUnsigned64 (toSigned64 u) = u := by
  constructor
  · rw [tUint64_val, List.cons_append, dv_uint64]
    simp only [readK_exact _ _ _ (be_length 8 u), beToNat_be 8 u (by omega), decodeNumber]
    have hov : overflowInt w (toSigned64 u) = !intFits w (toSigned64 u) := rfl
    rw [hov]
    cases hF : intFits w (toSigned64 u) with
    | true => simp [hF]
    | false => simp [hF]
  · unfold toUnsigned64 toSigned64
    split_ifs with h
    · omega
    · omega

theorem C2_numeric_coercion_witness :
    (2 ^ 64 - 1 : Nat) < 2 ^ 64 ∧
    decodeValue 1 (.tint .w64) (.vint .w64 0) ((tUint64 :: be 8 (2 ^ 64 - 1)) ++ []) =
      (if intFits .w64 (toSigned64 (2 ^ 64 - 1)) then
        (none, .vint .w64 (toSigned64 (2 ^ 64 - 1)), [])
       else (some (.typeErr "uint64" (.tint .w64)), .vint .w64 0, [])) :=
  ⟨by omega, (C2_numeric_coercion .w64 (2 ^ 64 - 1) (.vint .w64 0) [] (by omega)).1⟩

/-- C3 (counterexample): decoding a one-pair mapping (key "A") into a
two-field struct destination whose fields held `5` and `7` does not keep
the unmentioned field "B" at its prior value `7`: it comes back as the
zero value `0`. -/
theorem C3_counterexample :
    decodeValue 2 (.tstruct [(ascii "A", .tint .w64), (ascii "B", .tint .w64)])
        (.vstruct [(ascii "A", .vint .w64 5), (ascii "B", .vint .w64 7)])
        [79, 1, 83, 1, 65, 73, 1] =
      (none, .vstruct [(ascii "A", .vint .w64 1), (ascii "B", .vint .w64 0)], []) ∧
    (GoVal.vint .w64 0).beq (.vint .w64 7) = false :=
  ⟨rfl, rfl⟩

/-- C3 (amended): decoding a mapping that mentions a strict subset of the
destination struct's fields succeeds, but the unmentioned fields are reset
to their zero values — the decoder rebuilds the record in a fresh zero
value, so the prior field values (arbitrary here) never survive. -/
theorem C3_struct_subset (a b : Int) :
    decodeValue 2 (.tstruct [(ascii "A", .tint .w64), (ascii "B", .tint .w64)])
        (.vstruct [(ascii "A", .vint .w64 a), (ascii "B", .vint .w64 b)])
        [79, 1, 83, 1, 65, 73, 1] =
      (none, .vstruct [(ascii "A", .vint .w64 1), (ascii "B", .vint .w64 0)], []) := rfl

/-- C4: the integer encoder always picks the smallest tier whose range
covers the value, with the spec's thresholds: the emitted tag is exactly
the spec-side tier tag, and the payload width matches that tier. -/
theorem C4_integer_tiers (v : Int) (u : Nat) :
    (encodeInt v).head? = some (specSignedTierTag v) ∧
    (encodeUint u).head? = some (specUnsignedTierTag u) ∧
    (encodeInt v).length = 1 + (if specSignedTierTag v = tInt8 then 1
      else if specSignedTierTag v = tInt16 then 2
      else if specSignedTierTag v = tInt32 then 4 else 8) ∧
    (encodeUint u).length = 1 + (if specUnsignedTierTag u = tUint8 then 1
      else if specUnsignedTierTag u = tUint16 then 2
      else if specUnsignedTierTag u = tUint32 then 4 else 8) := by
  refine ⟨?_, ?_, ?_, ?_⟩
  · unfold encodeInt specSignedTierTag
    split_ifs <;> rfl
  · unfold encodeUint specUnsignedTierTag
    split_ifs <;> rfl
  · unfold encodeInt specSignedTierTag
    split_ifs <;> simp_all [beInt_length]
  · unfold encodeUint specUnsignedTierTag
    split_ifs <;> simp_all [be_length]

/-- C5: float encoding fails exactly on NaN/infinity; a finite value goes
to the 4-byte tier exactly when its absolute value lies in the closed
dyadic range from the smallest positive 32-bit subnormal to the largest
finite 32-bit float, and to the 8-byte tier otherwise; both zeros fall
outside that range and are always encoded in the 8-byte tier. -/
theorem C5_float_tiering (b : Nat) :
    ((∃ e, encodeFloat b = .error e) ↔ isNaNOrInf64 b = true) ∧
    (isNaNOrInf64 b = false →
      ((∃ p, encodeFloat b = .ok (tFloat32 :: p) ∧ p.length = 4) ↔
        (dle smallestNonzeroFloat32D (absD64 b) = true ∧
         dle (absD64 b) maxFloat32D = true)) ∧
      (¬(dle smallestNonzeroFloat32D (absD64 b) = true ∧
         dle (absD64 b) maxFloat32D = true) →
        encodeFloat b = .ok (tFloat64 :: be 8 b))) ∧
    encodeFloat 0 = .ok (tFloat64 :: be 8 0) ∧
    encodeFloat (2 ^ 63) = .ok (tFloat64 :: be 8 (2 ^ 63)) := by
  refine ⟨?_, ?_, rfl, rfl⟩
  · unfold encodeFloat
    split_ifs with h1 h2
    · simp [h1]
    · simp [h1]
    · simp [h1]
  · intro hN
    unfold encodeFloat
    rw [if_neg (by simp [hN])]
    split_ifs with h2
    · simp only [Bool.and_eq_true] at h2
      constructor
      · exact iff_of_true ⟨be 4 (f64ToF32bits b), rfl, be_length 4 _⟩ h2
      · intro hc
        exact absurd h2 hc
    · constructor
      · constructor
        · rintro ⟨p, hp, _⟩
          simp only [Except.ok.injEq, List.cons.injEq] at hp
          exact absurd hp.1 (by decide)
        · intro hc
          exact absurd (by simp [hc.1, hc.2] : (dle smallestNonzeroFloat32D (absD64 b) &&
              dle (absD64 b) maxFloat32D) = true) h2
      · intro _
        rfl

theorem C5_float_tiering_witness :
    isNaNOrInf64 4607182418800017408 = false ∧
    (∃ p, encodeFloat 4607182418800017408 = .ok (tFloat32 :: p) ∧ p.length = 4) :=
  ⟨rfl, ((C5_float_tiering 4607182418800017408).2.1 rfl).1.mpr ⟨by decide, by decide⟩⟩

/-- C6 (counterexample): the claim that only the literals "true" and
"false" parse into a boolean destination fails: the text "1" (byte `49`)
decodes into a boolean destination as `true` without error. -/
theorem C6_counterexample :
    decodeValue 1 .tbool (.vbool false) [83, 1, 49] = (none, .vbool true, []) ∧
    ([49] : ByteStr) ≠ ascii "true" ∧ ([49] : ByteStr) ≠ ascii "false" :=
  ⟨rfl, by decide, by decide⟩

/-- C6 (amended): a text record decoded into a boolean destination is
parsed with `strconv.ParseBool`, which accepts exactly the twelve literals
"1", "t", "T", "TRUE", "true", "True", "0", "f", "F", "FALSE", "false",
"False"; every other text fails with a decode type error. -/
theorem C6_text_bool (cur : GoVal) (s rest : ByteStr) (hlen : s.length < 2 ^ 32)
    (hne : ¬(s = [] ∧ rest = [])) :
    decodeValue 1 .tbool cur (encodeString s ++ rest) =
      (match parseBoolGo s with
       | none => (some (.typeErr "string" .tbool), cur, rest)
       | some x => (none, .vbool x, rest)) ∧
    (parseBoolGo s = some true ↔
      s = ascii "1" ∨ s = ascii "t" ∨ s = ascii "T" ∨ s = ascii "TRUE" ∨
      s = ascii "true" ∨ s = ascii "True") ∧
    (parseBoolGo s = some false ↔
      s = ascii "0" ∨ s = ascii "f" ∨ s = ascii "F" ∨ s = ascii "FALSE" ∨
      s = ascii "false" ∨ s = ascii "False") := by
  refine ⟨?_, ?_, ?_⟩
  · have hne2 : s ++ rest ≠ [] := by
      intro hc
      rcases List.append_eq_nil.mp hc with ⟨h1, h2⟩
      exact hne ⟨h1, h2⟩
    unfold encodeString
    split_ifs with h1 h2
    · rw [List.append_assoc, tString8_val, List.cons_append, dv_string8,
          readK_exact _ _ _ (be_length 1 s.length)]
      simp only [beToNat_be _ _ (by omega : s.length < 2 ^ (8 * 1)), decodeString]
      rw [next_exact s rest hne2]
    · rw [List.append_assoc, tString16_val, List.cons_append, dv_string16,
          readK_exact _ _ _ (be_length 2 s.length)]
      simp only [beToNat_be _ _ (by omega : s.length < 2 ^ (8 * 2)), decodeString]
      rw [next_exact s rest hne2]
    · rw [List.append_assoc, tString32_val, List.cons_append, dv_string32,
          readK_exact _ _ _ (be_length 4 s.length)]
      simp only [beToNat_be _ _ (by omega : s.length < 2 ^ (8 * 4)), decodeString]
      rw [next_exact s rest hne2]
  · unfold parseBoolGo
    split_ifs with h1 h2
    · exact iff_of_true rfl h1
    · exact iff_of_false (by simp) h1
    · exact iff_of_false (by simp) h1
  · unfold parseBoolGo
    split_ifs with h1 h2
    · refine iff_of_false (by simp) ?_
      rcases h1 with h | h | h | h | h | h <;> subst h <;>
        rintro (h' | h' | h' | h' | h' | h') <;> exact absurd h' (by decide)
    · exact iff_of_true rfl h2
    · exact iff_of_false (by simp) h2

theorem C6_text_bool_witness :
    ([49] : ByteStr).length < 2 ^ 32 ∧ ¬(([49] : ByteStr) = [] ∧ ([] : ByteStr) = []) ∧
    decodeValue 1 .tbool (.vbool false) (encodeString [49] ++ []) =
      (none, .vbool true, []) ∧
    parseBoolGo [49] = some true := by
  have h := C6_text_bool (.vbool false) [49] [] (by decide) (by simp)
  have hp : parseBoolGo [49] = some true := h.2.1.mpr (Or.inl (by decide))
  refine ⟨by decide, by simp, ?_, hp⟩
  rw [h.1, hp]

/-- C7: a tag byte outside the 25 recognized tags decodes as a no-op:
no error, no bytes consumed beyond the tag byte, and the destination is
left unchanged. -/
theorem C7_unknown_tag (tag : Nat) (htag : tag ∉ recognizedTags) (f : Nat) (t : GoType)
    (cur : GoVal) (rest : ByteStr) :
    decodeValue (f + 1) t cur (tag :: rest) = (none, cur, rest) := by
  simp only [recognizedTags, List.mem_cons, not_or] at htag
  obtain ⟨e1, e2, e3, e4, e5, e6, e7, e8, e9, e10, e11, e12, e13, e14, e15, e16, e17,
    e18, e19, e20, e21, e22, e23, e24, e25, _⟩ := htag
  simp only [decodeValue]
  rw [if_neg e1, if_neg e2, if_neg e3, if_neg e4, if_neg e5, if_neg e6, if_neg e7,
    if_neg e8, if_neg e9, if_neg e10, if_neg e11, if_neg e12, if_neg e13, if_neg e14,
    if_neg e15, if_neg e16, if_neg e17, if_neg e18, if_neg e19, if_neg e20, if_neg e21,
    if_neg e22, if_neg e23, if_neg e24, if_neg e25]

theorem C7_unknown_tag_witness :
    (88 : Nat) ∉ recognizedTags ∧
    decodeValue 1 .tbool (.vbool false) (88 :: [1, 2]) = (none, .vbool false, [1, 2]) :=
  ⟨by decide, C7_unknown_tag 88 (by decide) 0 .tbool (.vbool false) [1, 2]⟩

/-- C8: a sequence record of count `n` into a fixed array of capacity
`len` fails with a decode type error when `n` exceeds `len`, and otherwise
decodes the first `n` slots and zero-fills the remaining `len - n`; into a
slice destination the slice is resized to exactly `n` slots (zero-growing
past the capacity, truncating below) and every slot is decoded. -/
theorem C8_sequence_decode (dec : DecFn) (et : GoType) (len n : Nat) (es : List GoVal)
    (input r : ByteStr) (vs : List GoVal) :
    (len < n → decodeArray dec (.tarray len et) (.varray es) n input =
      (some (.typeErr "array" (.tarray len et)), .varray es, input)) ∧
    (n ≤ len → decodeArrayItems dec et (es.take n) input = (none, vs, r) →
      decodeArray dec (.tarray len et) (.varray es) n input =
        (none, .varray (vs ++ List.replicate (len - n) (zeroVal et)), r)) ∧
    (decodeArrayItems dec et (sliceResize es n (zeroVal et)) input = (none, vs, r) →
      decodeArray dec (.tslice et) (.vslice es) n input = (none, .vslice vs, r)) ∧
    (sliceResize es n (zeroVal et)).length = n := by
  refine ⟨?_, ?_, ?_, ?_⟩
  · intro h
    simp only [decodeArray, if_pos h]
  · intro h1 h2
    simp only [decodeArray, if_neg (not_lt.mpr h1), h2]
  · intro h
    simp only [decodeArray, h]
  · unfold sliceResize
    split_ifs with h
    · simp only [List.length_append, List.length_replicate]
      omega
    · simp only [List.length_take]
      omega

theorem C8_sequence_decode_witness :
    decodeArray (decodeValue 1) (.tarray 2 .tbool) (.varray [.vbool false, .vbool true])
        3 [84] =
      (some (.typeErr "array" (.tarray 2 .tbool)), .varray [.vbool false, .vbool true],
       [84]) ∧
    decodeArray (decodeValue 1) (.tarray 2 .tbool) (.varray [.vbool false, .vbool true])
        1 [84] =
      (none, .varray ([.vbool true] ++ List.replicate 1 (zeroVal .tbool)), []) ∧
    decodeArray (decodeValue 1) (.tslice .tbool) (.vslice []) 1 [84] =
      (none, .vslice [.vbool true], []) :=
  ⟨(C8_sequence_decode (decodeValue 1) .tbool 2 3 [.vbool false, .vbool true]
      [84] [84] []).1 (by omega),
   (C8_sequence_decode (decodeValue 1) .tbool 2 1 [.vbool false, .vbool true]
      [84] [] [.vbool true]).2.1 (by omega) rfl,
   (C8_sequence_decode (decodeValue 1) .tbool 0 1 [] [84] [] [.vbool true]).2.2.1 rfl⟩

/-- C9: a non-pointer or nil-pointer destination fails immediately with a
usage error (`DecoderError`), leaving the whole input unconsumed, and that
usage error is a different error from every decode type error
(`DecoderTypeError`). -/
theorem C9_usage_error (fuel : Nat) (t : GoType) (input : ByteStr) :
    decodeTop fuel (.nonPointer t) input = (some (.usage false), .nonPointer t, input) ∧
    decodeTop fuel (.nilPointer t) input = (some (.usage true), .nilPointer t, input) ∧
    (∀ (b : Bool) (v : String) (t2 : GoType), DecErr.usage b ≠ DecErr.typeErr v t2) := by
  refine ⟨rfl, rfl, ?_⟩
  intro b v t2 hc
  cases hc

theorem C9_usage_error_witness :
    decodeTop 5 (.nonPointer .tbool) [84] =
      (some (.usage false), .nonPointer .tbool, [84]) ∧
    DecErr.usage false ≠ DecErr.typeErr "bool" .tbool :=
  ⟨(C9_usage_error 5 .tbool [84]).1,
   (C9_usage_error 5 .tbool [84]).2.2 false "bool" .tbool⟩

/-- C10: decoding a mapping record into a struct destination is atomic:
the pair loop runs on a fresh zero value of the struct type, the result
replaces the destination only when every pair decoded, and any mid-record
error leaves the destination's fields (arbitrary here) untouched. -/
theorem C10_struct_atomicity (dec : DecFn) (fts : List (ByteStr × GoType))
    (fs xv : List (ByteStr × GoVal)) (n : Nat) (input r : ByteStr) (e : DecErr) :
    (decodeStructPairs dec fts (zeroFields fts) n input = (some e, xv, r) →
      decodeObject dec (.tstruct fts) (.vstruct fs) n input = (some e, .vstruct fs, r)) ∧
    (decodeStructPairs dec fts (zeroFields fts) n input = (none, xv, r) →
      decodeObject dec (.tstruct fts) (.vstruct fs) n input = (none, .vstruct xv, r)) := by
  constructor
  · intro h
    simp only [decodeObject, h]
  · intro h
    simp only [decodeObject, h]

theorem C10_struct_atomicity_witness :
    decodeObject (decodeValue 1) (.tstruct [(ascii "A", .tint .w64)])
        (.vstruct [(ascii "A", .vint .w64 42)]) 1 [83, 1, 66, 73, 1] =
      (some (.typeErr "object" (.tstruct [(ascii "A", .tint .w64)])),
       .vstruct [(ascii "A", .vint .w64 42)], [73, 1]) :=
  (C10_struct_atomicity (decodeValue 1) [(ascii "A", .tint .w64)]
      [(ascii "A", .vint .w64 42)] [(ascii "A", .vint .w64 0)] 1 [83, 1, 66, 73, 1]
      [73, 1] (.typeErr "object" (.tstruct [(ascii "A", .tint .w64)]))).1 rfl

end Godat
